import Mathlib

/-!
# Verification of the `mbd` NLP constraint-analysis pipeline

A shallow embedding, in Lean 4, of the parts of the `src/nlp` Python modules
that the specification's claims are about:

* `data_processor.py` — text normalization (`preprocess_text`) and the
  dataset-loading decision logic (`load_data`);
* `analysis/constraints.py` — `ConstraintIdentifier.identify_constraints`;
* `constraint_analyzer.py` — `ConstraintAnalyzer.identify_constraints`
  (with the department overlay) and `generate_recommendations`;
* `analysis/departments.py` — `DepartmentAnalyzer.analyze_department_patterns`;
* `recommendations/generators.py` — `RecommendationGenerator.generate_recommendations`;
* `utils/data_helpers.py` — `extract_key_people`, `extract_key_projects`,
  `create_email_threads`.

Python strings are modelled as Lean `String`/`List Char` (the datasets are
ASCII; `str.lower`, `str.strip` and the regex class `\s` are modelled on the
ASCII range).  Python floats are modelled as `ℚ`: every number produced by the
scored pipeline is a finite decimal/rational and the code performs no
float-rounding-sensitive comparisons.  Python dicts (insertion-ordered) are
modelled as association lists in insertion order.  `sorted(...)` is modelled by
a stable insertion sort (`sortRank` below) over a boolean comparator.
-/

namespace MBD

/-! ## Generic helpers: ASCII whitespace, substring search, association lists -/

/-- The whitespace characters matched by Python's `str.isspace`/`str.strip` and
the regex class `\s` on the ASCII range. -/
def isWs (c : Char) : Bool :=
  c = ' ' || c = '\t' || c = '\n' || c = '\r' || c = '\x0b' || c = '\x0c'

/-- `leadMatch needle hay` is true iff `needle` is an initial segment of `hay`. -/
def leadMatch : List Char → List Char → Bool
  | [], _ => true
  | _ :: _, [] => false
  | a :: as, b :: bs => a == b && leadMatch as bs

/-- `strHas hay needle` is true iff `needle` occurs contiguously inside `hay`
(Python's `needle in hay` on strings). -/
def strHas (needle : List Char) : List Char → Bool
  | [] => leadMatch needle []
  | c :: cs => leadMatch needle (c :: cs) || strHas needle cs

/-- Python's `needle in hay` for `String`s. -/
def strIn (needle hay : String) : Bool :=
  strHas needle.data hay.data

/-- Python's `str.lower` (ASCII). -/
def lowerStr (s : String) : String :=
  String.mk (s.data.map Char.toLower)

/-- Python's `<=` on strings: lexicographic comparison by code point. -/
def strLeL : List Char → List Char → Bool
  | [], _ => true
  | _ :: _, [] => false
  | a :: as, b :: bs =>
    if a.toNat < b.toNat then true
    else if b.toNat < a.toNat then false
    else strLeL as bs

/-- Python's `<=` on strings. -/
def strLe (a b : String) : Bool :=
  strLeL a.data b.data

/-- Dictionary lookup with a default (`d.get(k, dflt)`). -/
def lookupD {α : Type} (m : List (String × α)) (k : String) (dflt : α) : α :=
  match m.find? (fun p => p.1 == k) with
  | some p => p.2
  | none => dflt

/-- Add `v` to the entry of an existing key (`d[k] += v` when `k in d`). -/
def updAdd (m : List (String × ℚ)) (k : String) (v : ℚ) : List (String × ℚ) :=
  m.map (fun p => if p.1 == k then (p.1, p.2 + v) else p)

/-- Python's `d[k] = d.get(k, 0) + v` on an insertion-ordered dict, for natural
number counters. -/
def bump (m : List (String × Nat)) (k : String) (v : Nat) : List (String × Nat) :=
  if m.any (fun p => p.1 == k) then
    m.map (fun p => if p.1 == k then (p.1, p.2 + v) else p)
  else
    m ++ [(k, v)]

/-- Python's `d[k] = v` on an insertion-ordered dict of strings. -/
def setKV (m : List (String × String)) (k v : String) : List (String × String) :=
  if m.any (fun p => p.1 == k) then
    m.map (fun p => if p.1 == k then (p.1, v) else p)
  else
    m ++ [(k, v)]

/-! ## A stable sort modelling Python's `sorted`

`sortRank le l` inserts each element before the first already-placed element
`y` with `le x y`; with `le x y := key y ≤ key x` this is exactly Python's
stable `sorted(l, key, reverse=True)`, and with `le x y := key x ≤ key y` it is
the stable ascending `sorted(l, key)`. -/

/-- Insert `x` before the first element `y` of `l` with `le x y = true`. -/
def insertRank {α : Type} (le : α → α → Bool) (x : α) : List α → List α
  | [] => [x]
  | y :: ys => if le x y then x :: y :: ys else y :: insertRank le x ys

/-- Stable insertion sort over the boolean comparator `le`. -/
def sortRank {α : Type} (le : α → α → Bool) : List α → List α
  | [] => []
  | x :: xs => insertRank le x (sortRank le xs)

/-- A generic left-to-right scanner: `scanHas m l` is true iff `m` holds of some
suffix of `l` — i.e. the pattern recognised by `m` matches at some position.
Used to state "the text contains no signature marker / no 3-newline run". -/
def scanHas (m : List Char → Bool) : List Char → Bool
  | [] => false
  | c :: cs => m (c :: cs) || scanHas m cs

/-! ## `data_processor.py` — `EmailDataProcessor.preprocess_text`

The Python body is three `re.sub` passes followed by `str.strip()`:

* `re.sub(r'--\s*\n.*', '', text, flags=re.DOTALL)` — with DOTALL the `.*`
  runs to the end of the text, so the pass truncates the text at the leftmost
  occurrence of `--` followed by whitespace and a newline (`sigCut`);
* `re.sub(r'\n{3,}', '\n\n', text)` — each maximal run of 3 or more newlines
  becomes exactly two (`collapseNl`);
* `re.sub(r'<[^>]+>', '', text)` — each leftmost-next span `<...>` with at
  least one non-`>` character inside is deleted (`removeTags`);
* `text.strip()` (`stripWs`). -/

namespace DataProcessor

/-- The signature pattern `--\s*\n` matches at the head of `l`: two hyphens
followed by whitespace up to and including a newline. -/
def sigMatch : List Char → Bool
  | a :: b :: rest => a == '-' && b == '-' && (rest.takeWhile isWs).contains '\n'
  | _ => false

/-- Truncate at the leftmost match of `--\s*\n` (with DOTALL `.*` the whole
rest of the text is part of the match and is removed). -/
def sigCut : List Char → List Char
  | [] => []
  | c :: cs => if sigMatch (c :: cs) then [] else c :: sigCut cs

/-- Replace every maximal run of 3 or more newlines by exactly two
(`re.sub(r'\n{3,}', '\n\n', ·)`). -/
def collapseNl : List Char → List Char
  | [] => []
  | c :: cs =>
    if c = '\n' then
      (if 3 ≤ (cs.takeWhile (· = '\n')).length + 1 then ['\n', '\n']
       else c :: cs.takeWhile (· = '\n')) ++ collapseNl (cs.dropWhile (· = '\n'))
    else
      c :: collapseNl cs
termination_by l => l.length
decreasing_by
  · have := (List.dropWhile_sublist (l := cs) (· = '\n')).length_le
    simp only [List.length_cons]
    omega
  · simp only [List.length_cons]
    omega

/-- The tag pattern `<[^>]+>` matches at the head: `<`, at least one non-`>`
character, then `>`. -/
def tagMatch : List Char → Bool
  | c :: cs =>
    c == '<' && !(cs.takeWhile (· ≠ '>')).isEmpty &&
      decide ((cs.takeWhile (· ≠ '>')).length < cs.length)
  | [] => false

/-- Delete every (leftmost-next, non-overlapping) match of `<[^>]+>`. -/
def removeTags : List Char → List Char
  | [] => []
  | c :: cs =>
    if tagMatch (c :: cs) then
      removeTags (cs.drop ((cs.takeWhile (· ≠ '>')).length + 1))
    else
      c :: removeTags cs
termination_by l => l.length
decreasing_by
  · have := cs.length_drop ((cs.takeWhile (· ≠ '>')).length + 1)
    simp only [List.length_cons]
    omega
  · simp only [List.length_cons]
    omega

/-- Python's `str.strip()`: remove leading and trailing whitespace. -/
def stripWs (l : List Char) : List Char :=
  ((l.dropWhile isWs).reverse.dropWhile isWs).reverse

/-- `EmailDataProcessor.preprocess_text` on character lists: signature cut,
newline collapse, tag removal, outer strip — in that order. -/
def preprocessL (l : List Char) : List Char :=
  stripWs (removeTags (collapseNl (sigCut l)))

/-- `EmailDataProcessor.preprocess_text`. -/
def preprocess_text (s : String) : String :=
  String.mk (preprocessL s.data)

/-- The text contains a match of the signature pattern `--\s*\n` somewhere. -/
def hasSig : List Char → Bool := scanHas sigMatch

/-- The text contains a run of 3 or more newlines somewhere. -/
def hasRun3 : List Char → Bool := scanHas (leadMatch ['\n', '\n', '\n'])

end DataProcessor

/-! ## `utils/data_helpers.py` and `analysis/departments.py` — raw email records

`extract_key_people`, `extract_key_projects`, `create_email_threads` and
`DepartmentAnalyzer.analyze_department_patterns` all consume the raw email
dicts.  The fields below are exactly the keys those functions read; `sender`
models the JSON key `from`, and `Option` models a possibly-missing key. -/

structure RawEmail where
  sender : Option String
  «to» : List String
  cc : List String
  subject : String
  body : String
  department : Option String
  timestamp : Option String
  id : String
deriving DecidableEq, Repr

namespace DataHelpers

/-! ### `extract_key_people`

The `mentions` tally built from `@name` patterns in bodies is computed by the
Python function but never flows into its returned dict, so it is not modelled.
-/

/-- The mutable state of the first loop of `extract_key_people`:
`person_email_count`, `person_dept_map`, `replies_to` (insertion-ordered). -/
structure PeopleState where
  person_email_count : List (String × Nat)
  person_dept_map : List (String × String)
  replies_to : List (String × Nat)

/-- One iteration of the first loop of `extract_key_people`. -/
def people_step (st : PeopleState) (e : RawEmail) : PeopleState :=
  let st1 :=
    match e.sender with
    | some s =>
      if s ≠ "" then
        { st with
          person_email_count := bump st.person_email_count s 1
          person_dept_map :=
            match e.department with
            | some d => if d ≠ "" then setKV st.person_dept_map s d else st.person_dept_map
            | none => st.person_dept_map }
      else st
    | none => st
  { st1 with
    replies_to :=
      (e.«to» ++ e.cc).foldl
        (fun r rcp =>
          if rcp ≠ "" && strIn "Re:" e.subject then bump r rcp 1 else r)
        st1.replies_to }

/-- The five role lists computed by `extract_key_people` (before empty roles
are dropped from the returned dict). -/
structure KeyPeople where
  managers : List String
  team_leads : List String
  approvers : List String
  resource_managers : List String
  process_owners : List String
deriving DecidableEq, Repr

/-- Descending stable comparator on the counter of a `(key, count)` pair
(Python's `sorted(..., key=lambda x: x[1], reverse=True)`). -/
def descNat (a b : String × Nat) : Bool := decide (b.2 ≤ a.2)

/-- `extract_key_people`: reply-count ranks 1–3 are `managers`, ranks 4–6 are
`team_leads`; the top 3 of `person_email_count` (which the loop increments per
*sender*) minus managers are `approvers`; department equality gives
`resource_managers` / `process_owners`. -/
def extract_key_people (emails : List RawEmail) : KeyPeople :=
  let st := emails.foldl people_step ⟨[], [], []⟩
  let sorted_by_replies := sortRank descNat st.replies_to
  let managers := (sorted_by_replies.take 3).map (·.1)
  let team_leads := ((sorted_by_replies.drop 3).take 3).map (·.1)
  let sorted_recipients := sortRank descNat st.person_email_count
  let approvers :=
    ((sorted_recipients.take 3).map (·.1)).filter (fun p => !managers.contains p)
  let resource_managers :=
    st.person_dept_map.foldl
      (fun acc pd =>
        if pd.2 = "Resource Management" && !acc.contains pd.1 then acc ++ [pd.1] else acc) []
  let process_owners :=
    st.person_dept_map.foldl
      (fun acc pd =>
        if pd.2 = "Operations" && !acc.contains pd.1 then acc ++ [pd.1] else acc) []
  ⟨managers, team_leads, approvers, resource_managers, process_owners⟩

/-- The dict returned by `extract_key_people`: role lists in declaration
order, empty roles omitted. -/
def key_people_result (emails : List RawEmail) : List (String × List String) :=
  let kp := extract_key_people emails
  ([("managers", kp.managers), ("team_leads", kp.team_leads),
    ("approvers", kp.approvers), ("resource_managers", kp.resource_managers),
    ("process_owners", kp.process_owners)]).filter (fun p => !p.2.isEmpty)

/-! ### `extract_key_projects`

The two regexes are
`(?:Project|PROJ|project):?\s*([A-Za-z][A-Za-z0-9_\- ]+)` and
`\[([A-Za-z][A-Za-z0-9_\- ]+)\]`.  Neither is compiled with `re.IGNORECASE`,
so the literals `Project`, `PROJ`, `project` are matched case-sensitively.
Both patterns are deterministic (no observable backtracking): the capture
class contains no whitespace-first conflict with `\s*`, the `:?` branch cannot
be rescued by backtracking, and the alternatives are prefix-disjoint — so a
direct left-to-right scanner implements `re.findall` exactly. -/

/-- The capture class `[A-Za-z0-9_\- ]`. -/
def isNameChar (c : Char) : Bool :=
  c.isAlpha || c.isDigit || c = '_' || c = '-' || c = ' '

/-- Match the capture group `[A-Za-z][A-Za-z0-9_\- ]+` greedily at the head,
returning the capture and the rest of the input. -/
def grabName : List Char → Option (List Char × List Char)
  | [] => none
  | c :: cs =>
    if c.isAlpha then
      if (cs.takeWhile isNameChar).isEmpty then none
      else some (c :: cs.takeWhile isNameChar, cs.dropWhile isNameChar)
    else none

/-- Match a literal at the head, returning the rest. -/
def matchLit (lit : List Char) (l : List Char) : Option (List Char) :=
  if leadMatch lit l then some (l.drop lit.length) else none

/-- Try `(?:Project|PROJ|project):?\s*([A-Za-z][A-Za-z0-9_\- ]+)` at the head;
on success return (capture, rest after the whole match). -/
def tryProjAt (l : List Char) : Option (List Char × List Char) :=
  match matchLit "Project".data l <|> matchLit "PROJ".data l <|> matchLit "project".data l with
  | none => none
  | some rest =>
    let rest1 := match rest with
      | ':' :: r => r
      | r => r
    grabName (rest1.dropWhile isWs)

/-- Try `\[([A-Za-z][A-Za-z0-9_\- ]+)\]` at the head. -/
def tryBracketAt : List Char → Option (List Char × List Char)
  | '[' :: cs =>
    match grabName cs with
    | some (cap, rest) =>
      match rest with
      | ']' :: r => some (cap, r)
      | _ => none
    | none => none
  | _ => none

/-- `re.findall` driver: scan left to right, emitting each match's capture and
resuming after the match.  Every step strictly shortens the input (a
successful project match consumes the ≥4-character literal plus a ≥2-character
capture; a bracket match consumes `[`, the capture and `]`), so fuel equal to
the input length never runs out. -/
def scanGo (tryAt : List Char → Option (List Char × List Char)) :
    Nat → List Char → List (List Char)
  | 0, _ => []
  | _, [] => []
  | fuel + 1, c :: cs =>
    match tryAt (c :: cs) with
    | some (cap, rest) => cap :: scanGo tryAt fuel rest
    | none => scanGo tryAt fuel cs

/-- `re.findall(project_pattern, s)`. -/
def scanProj (s : String) : List (List Char) :=
  scanGo tryProjAt s.data.length s.data

/-- `re.findall(bracket_pattern, s)`. -/
def scanBracket (s : String) : List (List Char) :=
  scanGo tryBracketAt s.data.length s.data

/-- `match.strip()` followed by the length gate `3 <= len <= 30`. -/
def validName (cap : List Char) : Option String :=
  let t := DataProcessor.stripWs cap
  if 3 ≤ t.length ∧ t.length ≤ 30 then some (String.mk t) else none

/-- The accepted candidate names produced by scanning one text with both
patterns: strip, then keep lengths 3–30. -/
def valid_names (s : String) : List String :=
  (scanProj s ++ scanBracket s).filterMap validName

/-- The `(candidate, weight)` events contributed by one email, in the order
the Python loops produce them: subject matches of both patterns with weight 2,
then body matches with weight 1. -/
def email_project_events (e : RawEmail) : List (String × Nat) :=
  (valid_names e.subject).map (fun n => (n, 2)) ++ (valid_names e.body).map (fun n => (n, 1))

/-- The `project_mentions` dict after the main loop. -/
def project_tally (emails : List RawEmail) : List (String × Nat) :=
  ((emails.map email_project_events).flatten).foldl (fun m ev => bump m ev.1 ev.2) []

/-- `extract_key_projects`: sort the tally by weight descending (stable) and
return the first 5 names. -/
def extract_key_projects (emails : List RawEmail) : List String :=
  ((sortRank descNat (project_tally emails)).take 5).map (·.1)

/-- First occurrences of a list of keys, in order — the key order of an
insertion-ordered dict (used to state the tie-break rule of the claim). -/
def first_seen (ks : List String) : List String :=
  ks.foldl (fun acc k => if acc.contains k then acc else acc ++ [k]) []

/-! ### `create_email_threads` -/

/-- `re.sub(r'^(Re|Fwd|FW|FWD):\s*', '', subject, flags=re.IGNORECASE)`:
strip one leading reply/forward marker (the alternatives are tried in order;
`FWD` is already matched case-insensitively by `Fwd`) plus following
whitespace. -/
def clean_subject (s : String) : String :=
  let l := s.data
  let low := l.map Char.toLower
  if leadMatch "re:".data low then String.mk ((l.drop 3).dropWhile isWs)
  else if leadMatch "fwd:".data low then String.mk ((l.drop 4).dropWhile isWs)
  else if leadMatch "fw:".data low then String.mk ((l.drop 3).dropWhile isWs)
  else s

/-- Append `e` to the group of key `key`, creating the group at the end on
first sight (dict insertion order). -/
def add_to_group (gs : List (String × List RawEmail)) (key : String) (e : RawEmail) :
    List (String × List RawEmail) :=
  if gs.any (fun g => g.1 == key) then
    gs.map (fun g => if g.1 == key then (g.1, g.2 ++ [e]) else g)
  else
    gs ++ [(key, [e])]

/-- First pass of `create_email_threads`: group by cleaned subject, groups in
first-seen order. -/
def group_emails (emails : List RawEmail) : List (String × List RawEmail) :=
  emails.foldl (fun gs e => add_to_group gs (clean_subject e.subject) e) []

/-- The sort key `lambda x: x.get('timestamp', '')`. -/
def tsKey (e : RawEmail) : String := e.timestamp.getD ""

/-- Ascending stable sort on the raw timestamp string. -/
def sort_thread (es : List RawEmail) : List RawEmail :=
  sortRank (fun a b => strLe (tsKey a) (tsKey b)) es

/-- `create_email_threads`: group by cleaned subject; a thread is sorted by
its raw timestamp strings only when every email in it has a `timestamp` key. -/
def create_email_threads (emails : List RawEmail) : List (String × List RawEmail) :=
  (group_emails emails).enum.map
    (fun p =>
      ("thread_" ++ toString (p.1 + 1),
       if p.2.2.all (fun e => e.timestamp.isSome) then sort_thread p.2.2 else p.2.2))

/-- Modelled from the spec: the timestamp formats of §4.2
(`%Y-%m-%dT%H:%M:%S`, `%Y-%m-%d %H:%M:%S`, `%Y/%m/%d %H:%M:%S`, tried in this
order by `ThreadAnalyzer._parse_timestamp`, whose `dateutil` best-effort
fallback is an external library and is not modelled).  The result is an
order-preserving encoding of the parsed (Y, M, D, h, m, s) tuple; two
timestamps compare in calendar order iff their encodings compare in `Nat`
order. -/
def parseTsL : List Char → Option Nat
  | [y1, y2, y3, y4, s1, m1, m2, s2, d1, d2, s3, h1, h2, c1, n1, n2, c2, e1, e2] =>
    if ([y1, y2, y3, y4, m1, m2, d1, d2, h1, h2, n1, n2, e1, e2].all Char.isDigit) ∧
        c1 = ':' ∧ c2 = ':' ∧
        ((s1 = '-' ∧ s2 = '-' ∧ s3 = 'T') ∨ (s1 = '-' ∧ s2 = '-' ∧ s3 = ' ') ∨
          (s1 = '/' ∧ s2 = '/' ∧ s3 = ' ')) then
      some
        (((((((y1.toNat - 48) * 1000 + (y2.toNat - 48) * 100 + (y3.toNat - 48) * 10 +
          (y4.toNat - 48)) * 13 + ((m1.toNat - 48) * 10 + (m2.toNat - 48))) * 32 +
          ((d1.toNat - 48) * 10 + (d2.toNat - 48))) * 24 +
          ((h1.toNat - 48) * 10 + (h2.toNat - 48))) * 3600) +
          ((n1.toNat - 48) * 10 + (n2.toNat - 48)) * 60 + ((e1.toNat - 48) * 10 + (e2.toNat - 48)))
    else none
  | _ => none

/-- Modelled from the spec: see `parseTsL`. -/
def parse_timestamp (s : String) : Option Nat := parseTsL s.data

end DataHelpers

/-! ## `analysis/constraints.py` — `ConstraintIdentifier` -/

namespace ConstraintIdentifier

/-- `self.constraint_keywords` (the same table is repeated verbatim in
`constraint_analyzer.py`). -/
def constraint_keywords : List (String × List String) :=
  [("deadline_issues", ["deadline", "late", "delay", "overdue", "behind", "schedule"]),
   ("approval_bottlenecks", ["approval", "sign-off", "permission", "authorize", "waiting"]),
   ("resource_constraints", ["resource", "budget", "fund", "shortage", "limited", "insufficient"]),
   ("skill_gaps", ["training", "expertise", "knowledge", "skill", "learn", "understand"]),
   ("process_issues", ["process", "workflow", "procedure", "inefficient", "bureaucracy"]),
   ("communication_problems", ["misunderstanding", "unclear", "confusion", "miscommunication"])]

/-- `self.department_constraints` (repeated verbatim in
`constraint_analyzer.py` and `analysis/departments.py`). -/
def department_constraints : List (String × List String) :=
  [("Engineering", ["technical debt", "bug", "test", "integration", "compatibility"]),
   ("Marketing", ["campaign", "messaging", "audience", "content", "channels"]),
   ("Sales", ["pipeline", "leads", "conversion", "prospect", "client"]),
   ("Product", ["feature", "roadmap", "priority", "specification", "requirement"]),
   ("Finance", ["budget", "forecast", "expense", "approval", "cost"]),
   ("HR", ["hiring", "recruitment", "onboarding", "training", "retention"])]

/-- The number of keywords of `kws` present in `text.lower()`
(`if keyword in text_lower: score += 1.0`). -/
def countKw (kws : List String) (text : String) : Nat :=
  (kws.filter (fun kw => strIn kw (lowerStr text))).length

/-- `ConstraintIdentifier.identify_constraints` (the refactored scorer):
per email and category, add `min(score / len(keywords), 1.0)` when the matched
keyword count `score` is positive; finally divide every total by
`max(len(email_texts), 1)`. -/
def identify_constraints (email_texts : List String) : List (String × ℚ) :=
  let base := constraint_keywords.map (fun p => (p.1, (0 : ℚ)))
  let acc := email_texts.foldl
    (fun m text =>
      constraint_keywords.foldl
        (fun m2 p =>
          let score := countKw p.2 text
          if 0 < score then updAdd m2 p.1 (min ((score : ℚ) / (p.2.length : ℚ)) 1) else m2)
        m)
    base
  acc.map (fun p => (p.1, p.2 / ((max email_texts.length 1 : Nat) : ℚ)))

/-- The per-email, per-category contribution of the refactored scorer, in
closed form. -/
def email_contrib (kws : List String) (text : String) : ℚ :=
  if 0 < countKw kws text then min ((countKw kws text : ℚ) / (kws.length : ℚ)) 1 else 0

/-- The scoring rule claimed by the specification (§4.3, "binary presence"):
each email contributes exactly 1 to a category when any keyword of the
category occurs in its lowercased text, else 0; totals are divided by the
email count with minimum divisor 1. -/
def spec_binary_score (email_texts : List String) (kws : List String) : ℚ :=
  ((email_texts.filter (fun t => 0 < countKw kws t)).length : ℚ) /
    ((max email_texts.length 1 : Nat) : ℚ)

end ConstraintIdentifier

/-! ## `constraint_analyzer.py` — `ConstraintAnalyzer` (the legacy module) -/

namespace ConstraintAnalyzer

/-- The fields of a `prepare_bert_inputs` record read by
`identify_constraints`: `subject`, `processed_body` and
`sender['department']`. -/
structure BertEmail where
  subject : String
  processed_body : String
  sender_dept : String
deriving DecidableEq, Repr

/-- `f"{email['subject']} {email['processed_body']}"`. -/
def emailText (e : BertEmail) : String :=
  e.subject ++ " " ++ e.processed_body

/-- The number of keywords of `kws` whose lowercasing is present in
`text.lower()` (`sum(1 for keyword in keywords if keyword.lower() in
text.lower())`). -/
def countKwCI (kws : List String) (text : String) : Nat :=
  (kws.filter (fun kw => strIn (lowerStr kw) (lowerStr text))).length

/-- The `if/elif/else` chain that routes a matched department keyword:
`"feature" in keyword or "requirement" in keyword` → `resource_constraints`;
`elif "budget" in keyword or "cost" in keyword` → `resource_constraints`;
else `process_issues`. -/
def overlayTarget (kw : String) : String :=
  if strIn "feature" kw || strIn "requirement" kw then "resource_constraints"
  else if strIn "budget" kw || strIn "cost" kw then "resource_constraints"
  else "process_issues"

/-- The department-overlay block of `identify_constraints`: for each keyword
of the sender's department found in the text (`keyword.lower() in
text.lower()`), add 0.5 to the routed category. -/
def overlayStep (m : List (String × ℚ)) (dept : String) (text : String) :
    List (String × ℚ) :=
  (lookupD ConstraintIdentifier.department_constraints dept []).foldl
    (fun m2 kw =>
      if strIn (lowerStr kw) (lowerStr text) then updAdd m2 (overlayTarget kw) (1 / 2) else m2)
    m

/-- `ConstraintAnalyzer.identify_constraints`: per email add the raw matched
keyword count per category, apply the department overlay, then divide by the
email count when it is positive. -/
def identify_constraints (emails : List BertEmail) : List (String × ℚ) :=
  let base := ConstraintIdentifier.constraint_keywords.map (fun p => (p.1, (0 : ℚ)))
  let acc := emails.foldl
    (fun m e =>
      let text := emailText e
      let m1 := ConstraintIdentifier.constraint_keywords.foldl
        (fun m2 p => updAdd m2 p.1 ((countKwCI p.2 text : ℚ))) m
      overlayStep m1 e.sender_dept text)
    base
  if emails.length = 0 then acc
  else acc.map (fun p => (p.1, p.2 / (emails.length : ℚ)))

/-- The overlay routing claimed by the specification (§4.3): 0.5 to
`resource_constraints` when the matched keyword contains `budget`, `cost`,
`feature` or `requirement` as a case-insensitive substring, else 0.5 to
`process_issues`. -/
def specOverlayTarget (kw : String) : String :=
  if (["budget", "cost", "feature", "requirement"].any
        (fun w => strIn w (lowerStr kw))) then "resource_constraints"
  else "process_issues"

/-- The specification's overlay block (§4.3): same matched keywords, routed by
`specOverlayTarget`. -/
def specOverlayStep (m : List (String × ℚ)) (dept : String) (text : String) :
    List (String × ℚ) :=
  (lookupD ConstraintIdentifier.department_constraints dept []).foldl
    (fun m2 kw =>
      if strIn (lowerStr kw) (lowerStr text) then updAdd m2 (specOverlayTarget kw) (1 / 2)
      else m2)
    m

/-- The total overlay mass the legacy scorer adds to category `c` for one
email: 0.5 per department keyword that is found in the text and routed to `c`.
-/
def overlay_amount (dept text c : String) : ℚ :=
  ((((lookupD ConstraintIdentifier.department_constraints dept []).filter
      (fun kw => overlayTarget kw == c)).filter
        (fun kw => strIn (lowerStr kw) (lowerStr text))).length : ℚ) / 2

/-- A recommendation produced by `generate_recommendations`; the
`description`/`suggested_actions` strings are fixed per `constraint_type`
exactly like `title` and carry no further information used by any claim. -/
structure Rec where
  constraint_type : String
  confidence : ℚ
  title : String
deriving DecidableEq, Repr

/-- `_generate_recommendation_title`: `titles.get(constraint_type, "Address
Organizational Constraint")`. -/
def titleFor (c : String) : String :=
  lookupD
    [("deadline_issues", "Address Project Timeline Bottlenecks"),
     ("approval_bottlenecks", "Streamline Approval Processes"),
     ("resource_constraints", "Reallocate Resources to Critical Paths"),
     ("skill_gaps", "Close Knowledge and Skill Gaps"),
     ("process_issues", "Improve Inefficient Workflows"),
     ("communication_problems", "Resolve Communication Breakdowns")]
    c "Address Organizational Constraint"

/-- The fixed thread-based recommendation appended when slow threads exist. -/
def response_time_rec : Rec :=
  ⟨"response_time", 7 / 10, "Improve Team Response Time"⟩

/-- The first loop of `generate_recommendations`: sort the scores descending
(stable), take the top 3, skip entries with score < 0.1. -/
def base_recommendations (scores : List (String × ℚ)) : List Rec :=
  (((sortRank (fun a b => decide (b.2 ≤ a.2)) scores).take 3).filter
      (fun p => !decide (p.2 < 1 / 10))).map
    (fun p => ⟨p.1, p.2, titleFor p.1⟩)

/-- `ConstraintAnalyzer.generate_recommendations`: the top-3/threshold loop,
then — when some thread's `avg_response_time` exceeds 24 hours and fewer than
3 recommendations exist — the fixed response-time recommendation.
`thread_analysis` maps thread ids to their `avg_response_time`. -/
def generate_recommendations (scores : List (String × ℚ))
    (thread_analysis : List (String × ℚ)) : List Rec :=
  let recs := base_recommendations scores
  let slow_threads := thread_analysis.filter (fun p => decide ((24 : ℚ) < p.2))
  if slow_threads ≠ [] ∧ recs.length < 3 then recs ++ [response_time_rec] else recs

end ConstraintAnalyzer

/-! ## `analysis/departments.py` — `DepartmentAnalyzer` -/

namespace DepartmentAnalyzer

/-- The per-department insight record; the constant-zero
`communication_patterns` sub-dict is carried by the Python code but never
updated, and is not modelled. -/
structure DeptInsight where
  email_count : Nat
  constraints : List (String × ℚ)
deriving DecidableEq, Repr

/-- The reduced keyword lists hard-coded in the `if/elif` chain of
`analyze_department_patterns` ("we'll just check a few keywords per
constraint"); each contributes binary `+1` on any match. -/
def general_keywords : List (String × List String) :=
  [("deadline_issues", ["deadline", "late", "delay"]),
   ("approval_bottlenecks", ["approval", "waiting", "sign-off"]),
   ("resource_constraints", ["resource", "budget", "shortage"]),
   ("skill_gaps", ["training", "skill", "knowledge"]),
   ("process_issues", ["process", "workflow", "inefficient"]),
   ("communication_problems", ["unclear", "confusion", "misunderstanding"])]

/-- The department-specific block of `analyze_department_patterns`: every
matched department keyword adds 0.5 to `process_issues` ("Consider these as
process issues for simplicity"); `textLower` is the already-lowercased
subject+body. -/
def overlay_step (m : List (String × ℚ)) (dept : String) (textLower : String) :
    List (String × ℚ) :=
  (lookupD ConstraintIdentifier.department_constraints dept []).foldl
    (fun m2 kw => if strIn kw textLower then updAdd m2 "process_issues" (1 / 2) else m2)
    m

/-- The constraint updates of one email in `analyze_department_patterns`:
binary `+1` per general category with a matched reduced keyword, then the
department overlay. -/
def email_step (m : List (String × ℚ)) (dept : String) (textLower : String) :
    List (String × ℚ) :=
  let m1 := general_keywords.foldl
    (fun m2 p =>
      if p.2.any (fun w => strIn w textLower) then updAdd m2 p.1 1 else m2)
    m
  overlay_step m1 dept textLower

/-- `DepartmentAnalyzer.analyze_department_patterns`: departments are the
values of `sender_dept_map` (a Python `set`; modelled in first-seen order —
no claim depends on the iteration order of the result dict), defaulting to the
keys of `department_constraints` when the map is empty; per email from a known
department, bump its count and apply `email_step`; finally divide by
`max(email_count, 1)`. -/
def analyze_department_patterns (emails : List RawEmail)
    (sender_dept_map : List (String × String)) : List (String × DeptInsight) :=
  let departments :=
    if sender_dept_map.isEmpty then
      ConstraintIdentifier.department_constraints.map (·.1)
    else
      (sender_dept_map.map (·.2)).foldl
        (fun acc d => if acc.contains d then acc else acc ++ [d]) []
  let init : List (String × DeptInsight) :=
    departments.map
      (fun d => (d, ⟨0, ConstraintIdentifier.constraint_keywords.map (fun p => (p.1, (0 : ℚ)))⟩))
  let filled := emails.foldl
    (fun ins e =>
      match e.sender with
      | none => ins
      | some s =>
        match (sender_dept_map.find? (fun p => p.1 == s)) with
        | none => ins
        | some pd =>
          let textLower := lowerStr (e.subject ++ " " ++ e.body)
          ins.map
            (fun di =>
              if di.1 == pd.2 then
                (di.1,
                 ⟨di.2.email_count + 1, email_step di.2.constraints pd.2 textLower⟩)
              else di))
    init
  filled.map
    (fun di =>
      (di.1,
       ⟨di.2.email_count,
        di.2.constraints.map
          (fun p => (p.1, p.2 / ((max di.2.email_count 1 : Nat) : ℚ)))⟩))

end DepartmentAnalyzer

/-! ## `recommendations/generators.py` — `RecommendationGenerator` -/

namespace RecommendationGenerator

/-- A recommendation of the refactored generator.  Personalization
(`_personalize_recommendation`) rewrites the textual `title`/`description`/
`actions` fields of the same record and attaches `relevant_people`/
`relevant_projects`; it never changes `constraint_type`, `score` or
`priority`, and never adds or removes a recommendation — only the latter
fields, which every claim is about, are modelled. -/
structure Rec where
  constraint_type : String
  score : ℚ
  priority : String
deriving DecidableEq, Repr

/-- `_calculate_priority`. -/
def calculate_priority (score : ℚ) : String :=
  if 7 / 10 ≤ score then "high"
  else if 4 / 10 ≤ score then "medium"
  else "low"

/-- The keys of `self.recommendation_templates`
(`template = templates.get(t); if not template: continue`). -/
def has_template (c : String) : Bool :=
  ["deadline_issues", "approval_bottlenecks", "resource_constraints",
   "skill_gaps", "process_issues", "communication_problems"].contains c

/-- The main loop of `generate_recommendations` over the sorted scores:
skip scores below 0.1, skip unknown constraint types, stop as soon as 5
recommendations have been collected.  `n` is the number already collected. -/
def recLoop : List (String × ℚ) → Nat → List Rec
  | [], _ => []
  | (c, s) :: rest, n =>
    if s < 1 / 10 then recLoop rest n
    else if ¬ has_template c then recLoop rest n
    else if 5 ≤ n + 1 then [⟨c, s, calculate_priority s⟩]
    else ⟨c, s, calculate_priority s⟩ :: recLoop rest (n + 1)

/-- `RecommendationGenerator.generate_recommendations`: stable-sort the score
dict descending and run the collection loop. -/
def generate_recommendations (constraint_scores : List (String × ℚ)) : List Rec :=
  recLoop (sortRank (fun a b => decide (b.2 ≤ a.2)) constraint_scores) 0

end RecommendationGenerator

/-! ## `data_processor.py` — the dataset-loading decision logic

`EmailDataProcessor.load_data` performs file I/O and JSON parsing and then
branches on the shape of the parsed value.  The I/O/parse outcome is modelled
as an inductive: `parseFail` stands for every exception path (unreadable file,
malformed JSON — the whole `try` returns `False`), and the other constructors
are the three accepted shapes plus any other JSON value (for which no branch
assigns `self.emails`, leaving it `[]`). -/

namespace Loading

inductive LoadedJson where
  | parseFail : LoadedJson
  | dictRaw (emails : List RawEmail) : LoadedJson
  | dictEmails (emails : List RawEmail) : LoadedJson
  | listEmails (emails : List RawEmail) : LoadedJson
  | otherJson : LoadedJson
deriving DecidableEq

/-- The value of `self.emails` after the shape branches of `load_data`. -/
def extracted_emails : LoadedJson → List RawEmail
  | .parseFail => []
  | .dictRaw es => es
  | .dictEmails es => es
  | .listEmails es => es
  | .otherJson => []

/-- `load_data`: `False` on any exception, else `len(self.emails) > 0`. -/
def load_data : LoadedJson → Bool
  | .parseFail => false
  | d => decide (0 < (extracted_emails d).length)

/-- The `status` field of the report returned by `analyze_dataset`
(`constraint_analyzer_refactored.py`): `"error"` exactly when `load_data`
returned `False`, `"success"` otherwise. -/
def analyze_status (d : LoadedJson) : String :=
  if load_data d then "success" else "error"

end Loading

end MBD

/-! # Helper lemmas -/

namespace MBD

/-! ## Association-list lemmas -/

theorem lookupD_nil {α : Type} (k : String) (dflt : α) : lookupD [] k dflt = dflt := rfl

theorem lookupD_cons {α : Type} (p : String × α) (m : List (String × α)) (k : String)
    (dflt : α) :
    lookupD (p :: m) k dflt = if p.1 = k then p.2 else lookupD m k dflt := by
  by_cases h : p.1 = k <;> simp [lookupD, List.find?_cons, h]

theorem lookupD_mapDiv (m : List (String × ℚ)) (k : String) (n : ℚ) :
    lookupD (m.map (fun p => (p.1, p.2 / n))) k 0 = lookupD m k 0 / n := by
  induction m with
  | nil => simp [lookupD_nil]
  | cons p ps ih =>
    rw [List.map_cons, lookupD_cons, lookupD_cons]
    by_cases h : p.1 = k <;> simp [h, ih]

theorem updAdd_keys (m : List (String × ℚ)) (k : String) (v : ℚ) :
    (updAdd m k v).map Prod.fst = m.map Prod.fst := by
  induction m with
  | nil => rfl
  | cons p ps ih =>
    simp only [updAdd, List.map_cons] at ih ⊢
    by_cases h : p.1 = k
    · simpa [h] using ih
    · simpa [h] using ih

theorem any_key_updAdd (m : List (String × ℚ)) (k k' : String) (v : ℚ) :
    (updAdd m k v).any (fun p => p.1 == k') = m.any (fun p => p.1 == k') := by
  have hk : ∀ mm : List (String × ℚ), mm.any (fun p => p.1 == k') =
      (mm.map Prod.fst).any (fun a => a == k') := by
    intro mm
    induction mm with
    | nil => rfl
    | cons q qs ih => simp [List.any_cons, ih]
  rw [hk, hk, updAdd_keys]

theorem lookupD_updAdd_self (m : List (String × ℚ)) (k : String) (v : ℚ)
    (h : m.any (fun p => p.1 == k) = true) :
    lookupD (updAdd m k v) k 0 = lookupD m k 0 + v := by
  induction m with
  | nil => simp at h
  | cons p ps ih =>
    simp only [List.any_cons, Bool.or_eq_true, beq_iff_eq] at h
    by_cases hp : p.1 = k
    · simp [updAdd, lookupD_cons, hp]
    · have h' : ps.any (fun p => p.1 == k) = true := by
        rcases h with h | h
        · exact absurd h hp
        · exact h
      simp only [updAdd, List.map_cons] at ih ⊢
      rw [if_neg (by simpa using hp)]
      rw [lookupD_cons, if_neg hp, lookupD_cons, if_neg hp]
      exact ih h'

theorem lookupD_updAdd_ne (m : List (String × ℚ)) (k k' : String) (v : ℚ)
    (h : k' ≠ k) :
    lookupD (updAdd m k v) k' 0 = lookupD m k' 0 := by
  induction m with
  | nil => rfl
  | cons p ps ih =>
    simp only [updAdd, List.map_cons] at ih ⊢
    by_cases hp : p.1 = k
    · rw [if_pos (by simpa using hp), lookupD_cons, lookupD_cons]
      simp only []
      rw [if_neg (by rw [hp]; exact fun hh => h hh.symm), if_neg (by rw [hp]; exact fun hh => h hh.symm)]
      exact ih
    · rw [if_neg (by simpa using hp), lookupD_cons, lookupD_cons]
      by_cases hk : p.1 = k'
      · simp [hk]
      · simp only [if_neg hk]
        exact ih

/-! ## Stable-sort lemmas -/

theorem insertRank_perm {α : Type} (le : α → α → Bool) (x : α) (l : List α) :
    (insertRank le x l).Perm (x :: l) := by
  induction l with
  | nil => exact List.Perm.refl _
  | cons y ys ih =>
    rw [insertRank]
    by_cases h : le x y = true
    · rw [if_pos h]
    · rw [if_neg h]
      exact (ih.cons y).trans (List.Perm.swap x y ys)

theorem sortRank_perm {α : Type} (le : α → α → Bool) (l : List α) :
    (sortRank le l).Perm l := by
  induction l with
  | nil => exact List.Perm.refl _
  | cons x xs ih => exact (insertRank_perm le x (sortRank le xs)).trans (ih.cons x)

theorem insertRank_pairwise {α : Type} (le : α → α → Bool)
    (htot : ∀ a b, le a b = true ∨ le b a = true)
    (htr : ∀ a b c, le a b = true → le b c = true → le a c = true)
    (x : α) (l : List α) (h : l.Pairwise (fun a b => le a b = true)) :
    (insertRank le x l).Pairwise (fun a b => le a b = true) := by
  induction l with
  | nil => simp [insertRank]
  | cons y ys ih =>
    rw [List.pairwise_cons] at h
    rw [insertRank]
    by_cases hxy : le x y = true
    · rw [if_pos hxy, List.pairwise_cons]
      refine ⟨?_, List.pairwise_cons.mpr h⟩
      intro z hz
      rcases List.mem_cons.mp hz with rfl | hz
      · exact hxy
      · exact htr x y z hxy (h.1 z hz)
    · rw [if_neg hxy, List.pairwise_cons]
      refine ⟨?_, ih h.2⟩
      intro z hz
      have hz' := (insertRank_perm le x ys).mem_iff.mp hz
      rcases List.mem_cons.mp hz' with rfl | hz'
      · rcases htot z y with hh | hh
        · exact absurd hh hxy
        · exact hh
      · exact h.1 z hz'

theorem sortRank_pairwise {α : Type} (le : α → α → Bool)
    (htot : ∀ a b, le a b = true ∨ le b a = true)
    (htr : ∀ a b c, le a b = true → le b c = true → le a c = true)
    (l : List α) :
    (sortRank le l).Pairwise (fun a b => le a b = true) := by
  induction l with
  | nil => simp [sortRank]
  | cons x xs ih => exact insertRank_pairwise le htot htr x _ ih

theorem insertRank_filter {α : Type} (le : α → α → Bool) (p : α → Bool) (x : α)
    (l : List α) (hx : ∀ y ∈ l, p x = true → p y = true → le x y = true) :
    (insertRank le x l).filter p = if p x then x :: l.filter p else l.filter p := by
  induction l with
  | nil => by_cases h : p x <;> simp [insertRank, List.filter, h]
  | cons y ys ih =>
    rw [insertRank]
    by_cases hxy : le x y = true
    · rw [if_pos hxy]
      by_cases h : p x <;> simp [List.filter_cons, h]
    · rw [if_neg hxy]
      have ih' := ih (fun z hz => hx z (List.mem_cons_of_mem y hz))
      by_cases hpx : p x = true
      · have hpy : p y = false := by
          by_contra hpy
          exact hxy (hx y (List.mem_cons_self y ys) hpx (by simpa using hpy))
        simp [List.filter_cons, hpy, ih', hpx]
      · have hpx' : p x = false := by simpa using hpx
        simp [List.filter_cons, ih', hpx']

theorem sortRank_filter {α : Type} (le : α → α → Bool) (p : α → Bool) (l : List α)
    (hp : ∀ x y, p x = true → p y = true → le x y = true) :
    (sortRank le l).filter p = l.filter p := by
  induction l with
  | nil => rfl
  | cons x xs ih =>
    rw [sortRank, insertRank_filter le p x _ (fun y _ => hp x y), List.filter_cons, ih]

/-! ## Scanner (`scanHas`) lemmas -/

theorem scanHas_append_left (m : List Char → Bool) (a b : List Char)
    (h : scanHas m b = true) : scanHas m (a ++ b) = true := by
  induction a with
  | nil => simpa using h
  | cons c cs ih =>
    rw [List.cons_append, scanHas]
    simp [ih]

theorem scanHas_append_right (m : List Char → Bool)
    (hm : ∀ s b, m s = true → m (s ++ b) = true) (a b : List Char)
    (h : scanHas m a = true) : scanHas m (a ++ b) = true := by
  induction a with
  | nil => simp [scanHas] at h
  | cons c cs ih =>
    rw [scanHas] at h
    rw [List.cons_append, scanHas]
    rcases Bool.or_eq_true_iff.mp h with h | h
    · have := hm (c :: cs) b h
      rw [List.cons_append] at this
      simp [this]
    · simp [ih h]

theorem scanHas_tail_false (m : List Char → Bool) (a b : List Char)
    (h : scanHas m (a ++ b) = false) : scanHas m b = false := by
  by_contra hb
  rw [scanHas_append_left m a b (by simpa using hb)] at h
  exact Bool.true_eq_false.mp h

end MBD

namespace MBD

namespace DataProcessor

/-! ## Lemmas for `preprocess_text` (claim C2) -/

theorem takeWhile_mono_pre (p : Char → Bool) (a t : List Char) :
    a.takeWhile p <+: (a ++ t).takeWhile p := by
  induction a with
  | nil => exact List.nil_prefix
  | cons c cs ih =>
    by_cases hc : p c
    · simp only [List.cons_append, List.takeWhile_cons, if_pos hc]
      obtain ⟨r, hr⟩ := ih
      exact ⟨r, by rw [List.cons_append, hr]⟩
    · simp only [List.cons_append, List.takeWhile_cons, if_neg hc]
      exact List.nil_prefix

theorem wsNl_mono_ap (r b : List Char)
    (h : (r.takeWhile isWs).contains '\n' = true) :
    (((r ++ b).takeWhile isWs).contains '\n') = true := by
  rw [List.elem_iff] at h ⊢
  exact (takeWhile_mono_pre isWs r b).subset h

theorem sigMatch_ap (s b : List Char) (h : sigMatch s = true) :
    sigMatch (s ++ b) = true := by
  match s with
  | [] => simp [sigMatch] at h
  | [a] => simp [sigMatch] at h
  | a :: a' :: rest =>
    simp only [sigMatch, Bool.and_eq_true, beq_iff_eq] at h
    simp only [List.cons_append, sigMatch, Bool.and_eq_true, beq_iff_eq]
    exact ⟨⟨h.1.1, h.1.2⟩, wsNl_mono_ap rest b h.2⟩

theorem wsNl_mono_pre {a b : List Char} (h : a <+: b)
    (hn : (a.takeWhile isWs).contains '\n' = true) :
    (b.takeWhile isWs).contains '\n' = true := by
  obtain ⟨t, rfl⟩ := h
  exact wsNl_mono_ap a t hn

theorem sigCut_isPre (l : List Char) : sigCut l <+: l := by
  induction l with
  | nil => exact List.nil_prefix
  | cons c cs ih =>
    rw [sigCut]
    by_cases h : sigMatch (c :: cs) = true
    · rw [if_pos h]
      exact List.nil_prefix
    · rw [if_neg h]
      obtain ⟨r, hr⟩ := ih
      exact ⟨r, by rw [List.cons_append, hr]⟩

theorem hasSig_sigCut (l : List Char) : hasSig (sigCut l) = false := by
  induction l with
  | nil => rfl
  | cons c cs ih =>
    rw [sigCut]
    by_cases h : sigMatch (c :: cs) = true
    · rw [if_pos h]
      rfl
    · rw [if_neg h]
      simp only [hasSig, scanHas] at ih ⊢
      rw [Bool.or_eq_false_iff]
      refine ⟨?_, ih⟩
      by_contra hm
      rw [Bool.not_eq_false] at hm
      match cs, hcs : sigCut cs with
      | [], _ =>
        rw [show sigCut ([] : List Char) = [] from rfl] at hm
        simp [sigMatch] at hm
      | d :: ds, _ =>
        rw [sigCut] at hm
        by_cases h2 : sigMatch (d :: ds) = true
        · rw [if_pos h2] at hm
          simp [sigMatch] at hm
        · rw [if_neg h2] at hm
          simp only [sigMatch, Bool.and_eq_true, beq_iff_eq] at hm
          apply h
          simp only [sigMatch, Bool.and_eq_true, beq_iff_eq]
          exact ⟨⟨hm.1.1, hm.1.2⟩, wsNl_mono_pre (sigCut_isPre ds) hm.2⟩

theorem sigCut_noSig (l : List Char) (h : hasSig l = false) : sigCut l = l := by
  induction l with
  | nil => rfl
  | cons c cs ih =>
    simp only [hasSig, scanHas, Bool.or_eq_false_iff] at h
    rw [sigCut, if_neg (by simp [h.1]), ih h.2]

theorem collapseNl_head (l : List Char) : (collapseNl l).head? = l.head? := by
  cases l with
  | nil => simp [collapseNl]
  | cons c cs =>
    rw [collapseNl]
    by_cases hc : c = '\n'
    · rw [if_pos hc]
      by_cases h3 : 3 ≤ (cs.takeWhile (· = '\n')).length + 1
      · rw [if_pos h3, List.head?_append]
        simp [hc]
      · rw [if_neg h3, List.head?_append]
        simp
    · rw [if_neg hc]
      rfl

theorem wsNl_collapse (l : List Char)
    (h : ((collapseNl l).takeWhile isWs).contains '\n' = true) :
    ((l.takeWhile isWs).contains '\n') = true := by
  induction l using collapseNl.induct with
  | case1 => simp [collapseNl] at h
  | case2 cs ih =>
    have : isWs '\n' = true := by decide
    simp [List.takeWhile_cons, this]
  | case3 c cs hc ih =>
    rw [collapseNl, if_neg hc] at h
    by_cases hw : isWs c
    · rw [List.takeWhile_cons, if_pos hw] at h
      rw [List.takeWhile_cons, if_pos hw]
      rw [List.contains_cons] at h ⊢
      rcases Bool.or_eq_true_iff.mp h with h | h
      · simp [h]
      · rw [Bool.or_eq_true_iff]
        exact Or.inr (ih h)
    · rw [List.takeWhile_cons, if_neg hw] at h
      simp at h

theorem hasSig_nlseg (seg y : List Char) (hseg : ∀ c ∈ seg, c = '\n')
    (h : hasSig (seg ++ y) = true) : hasSig y = true := by
  induction seg with
  | nil => simpa using h
  | cons c cs ih =>
    rw [List.cons_append] at h
    simp only [hasSig, scanHas, Bool.or_eq_true_iff] at h
    rcases h with h | h
    · exfalso
      have hc : c = '\n' := hseg c (List.mem_cons_self c cs)
      subst hc
      cases hcs : cs ++ y with
      | nil => rw [hcs] at h; simp [sigMatch] at h
      | cons d ds => rw [hcs] at h; simp [sigMatch] at h
    · exact ih (fun x hx => hseg x (List.mem_cons_of_mem c hx)) h

theorem hasSig_collapse_mono (l : List Char)
    (h : hasSig (collapseNl l) = true) : hasSig l = true := by
  induction l using collapseNl.induct with
  | case1 => simpa [collapseNl] using h
  | case2 cs ih =>
    rw [collapseNl, if_pos rfl] at h
    have hseg : ∀ c ∈ (if 3 ≤ (cs.takeWhile (· = '\n')).length + 1 then ['\n', '\n']
        else '\n' :: cs.takeWhile (· = '\n')), c = '\n' := by
      intro c hcmem
      by_cases h3 : 3 ≤ (cs.takeWhile (· = '\n')).length + 1
      · rw [if_pos h3] at hcmem
        simpa using hcmem
      · rw [if_neg h3] at hcmem
        rcases List.mem_cons.mp hcmem with rfl | hcmem
        · rfl
        · have := List.mem_takeWhile_imp hcmem
          simpa using this
    have h2 := hasSig_nlseg _ _ hseg h
    have h3 := ih h2
    have h4 : hasSig cs = true := by
      have := scanHas_append_left sigMatch (cs.takeWhile (· = '\n'))
        (cs.dropWhile (· = '\n')) h3
      rwa [List.takeWhile_append_dropWhile] at this
    simp only [hasSig, scanHas, Bool.or_eq_true_iff]
    exact Or.inr h4
  | case3 c cs hc ih =>
    rw [collapseNl, if_neg hc] at h
    simp only [hasSig, scanHas, Bool.or_eq_true_iff] at h ⊢
    rcases h with h | h
    · left
      cases hcc : collapseNl cs with
      | nil => rw [hcc] at h; simp [sigMatch] at h
      | cons d ds =>
        rw [hcc] at h
        cases cs with
        | nil => simp [collapseNl] at hcc
        | cons e cs' =>
          have hhead := collapseNl_head (e :: cs')
          rw [hcc] at hhead
          simp only [List.head?_cons, Option.some.injEq] at hhead
          subst hhead
          simp only [sigMatch, Bool.and_eq_true, beq_iff_eq] at h
          have hd : d = '-' := h.1.2
          have hde : ¬ d = '\n' := by rw [hd]; decide
          rw [collapseNl, if_neg hde] at hcc
          have hds : ds = collapseNl cs' := by
            have := List.cons.injEq d (collapseNl cs') d ds ▸ hcc
            exact (List.cons.inj hcc).2.symm
          simp only [sigMatch, Bool.and_eq_true, beq_iff_eq]
          refine ⟨⟨h.1.1, hd⟩, ?_⟩
          apply wsNl_collapse
          rw [← hds]
          exact h.2
    · exact Or.inr (ih h)

theorem hasSig_collapse (l : List Char) (h : hasSig l = false) :
    hasSig (collapseNl l) = false := by
  by_contra hh
  rw [Bool.not_eq_false] at hh
  rw [hasSig_collapse_mono l hh] at h
  exact Bool.true_eq_false.mp h

theorem leadMatch_ap (n s b : List Char) (h : leadMatch n s = true) :
    leadMatch n (s ++ b) = true := by
  induction n generalizing s with
  | nil => rfl
  | cons a as ih =>
    cases s with
    | nil => simp [leadMatch] at h
    | cons c cs =>
      rw [leadMatch, Bool.and_eq_true] at h
      rw [List.cons_append, leadMatch, Bool.and_eq_true]
      exact ⟨h.1, ih cs h.2⟩

theorem dropWhile_head_not (p : Char → Bool) (l : List Char) (c : Char)
    (h : (l.dropWhile p).head? = some c) : p c = false := by
  induction l with
  | nil => simp [List.dropWhile] at h
  | cons d ds ih =>
    by_cases hd : p d
    · rw [List.dropWhile_cons, if_pos hd] at h
      exact ih h
    · rw [List.dropWhile_cons, if_neg hd] at h
      simp only [List.head?_cons, Option.some.injEq] at h
      subst h
      simpa using hd

theorem hasRun3_seg1 (y : List Char) (hy : ∀ c, y.head? = some c → c ≠ '\n')
    (h : hasRun3 y = false) : hasRun3 ('\n' :: y) = false := by
  simp only [hasRun3, scanHas, Bool.or_eq_false_iff]
  refine ⟨?_, h⟩
  cases y with
  | nil => rfl
  | cons c cs =>
    have h2 := hy c rfl
    simp [leadMatch, h2.symm]

theorem hasRun3_seg2 (y : List Char) (hy : ∀ c, y.head? = some c → c ≠ '\n')
    (h : hasRun3 y = false) : hasRun3 ('\n' :: '\n' :: y) = false := by
  have h1 := hasRun3_seg1 y hy h
  simp only [hasRun3, scanHas, Bool.or_eq_false_iff]
  refine ⟨?_, ?_⟩
  · cases y with
    | nil => rfl
    | cons c cs =>
      have h2 := hy c rfl
      simp [leadMatch, h2.symm]
  · simpa [hasRun3, scanHas, Bool.or_eq_false_iff] using h1

theorem hasRun3_collapse (l : List Char) : hasRun3 (collapseNl l) = false := by
  induction l using collapseNl.induct with
  | case1 => simp [collapseNl, hasRun3, scanHas]
  | case2 cs ih =>
    rw [collapseNl, if_pos rfl]
    have hhead : ∀ c, (collapseNl (cs.dropWhile (· = '\n'))).head? = some c → c ≠ '\n' := by
      intro c hcp
      rw [collapseNl_head] at hcp
      have := dropWhile_head_not (· = '\n') cs c hcp
      simpa using this
    by_cases h3 : 3 ≤ (cs.takeWhile (· = '\n')).length + 1
    · rw [if_pos h3]
      exact hasRun3_seg2 _ hhead ih
    · rw [if_neg h3]
      have hlen : (cs.takeWhile (· = '\n')).length ≤ 1 := by omega
      cases hw : cs.takeWhile (· = '\n') with
      | nil =>
        simpa using hasRun3_seg1 _ hhead ih
      | cons a as =>
        have ha : a = '\n' := by
          have ham : a ∈ cs.takeWhile (· = '\n') := by
            rw [hw]
            exact List.mem_cons_self a as
          simpa using List.mem_takeWhile_imp ham
        have has : as = [] := by
          rw [hw] at hlen
          simp only [List.length_cons] at hlen
          exact List.eq_nil_of_length_eq_zero (by omega)
        subst ha
        subst has
        simpa using hasRun3_seg2 _ hhead ih
  | case3 c cs hc ih =>
    rw [collapseNl, if_neg hc]
    simp only [hasRun3, scanHas, Bool.or_eq_false_iff]
    refine ⟨?_, ih⟩
    have hc2 : ¬ '\n' = c := fun hcc => hc hcc.symm
    cases hcol : collapseNl cs with
    | nil => simp [leadMatch, hc2]
    | cons d ds => simp [leadMatch, hc2]

theorem collapse_noRun3 (l : List Char) (h : hasRun3 l = false) :
    collapseNl l = l := by
  induction l using collapseNl.induct with
  | case1 => simp [collapseNl]
  | case2 cs ih =>
    simp only [hasRun3, scanHas, Bool.or_eq_false_iff] at h
    have hlen : (cs.takeWhile (· = '\n')).length ≤ 1 := by
      by_contra hlen
      push_neg at hlen
      obtain ⟨a, as, hw⟩ : ∃ a as, cs.takeWhile (· = '\n') = a :: as := by
        cases hw : cs.takeWhile (· = '\n') with
        | nil => rw [hw] at hlen; simp at hlen
        | cons a as => exact ⟨a, as, rfl⟩
      obtain ⟨b, bs, hw2⟩ : ∃ b bs, as = b :: bs := by
        cases hw2 : as with
        | nil => rw [hw, hw2] at hlen; simp at hlen
        | cons b bs => exact ⟨b, bs, rfl⟩
      have ha : a = '\n' := by
        have : a ∈ cs.takeWhile (· = '\n') := by rw [hw]; exact List.mem_cons_self a as
        simpa using List.mem_takeWhile_imp this
      have hb : b = '\n' := by
        have : b ∈ cs.takeWhile (· = '\n') := by
          rw [hw, hw2]
          exact List.mem_cons_of_mem a (List.mem_cons_self b bs)
        simpa using List.mem_takeWhile_imp this
      have hcs : cs = '\n' :: '\n' :: (bs ++ cs.dropWhile (· = '\n')) := by
        conv_lhs => rw [← List.takeWhile_append_dropWhile (p := (· = '\n')) (l := cs)]
        rw [hw, hw2, ha, hb]
        simp
      have : leadMatch ['\n', '\n', '\n'] ('\n' :: cs) = true := by
        rw [hcs]
        simp [leadMatch]
      rw [this] at h
      exact Bool.true_eq_false.mp h.1
    rw [collapseNl, if_pos rfl, if_neg (by omega)]
    have hrest : hasRun3 (cs.dropWhile (· = '\n')) = false := by
      have hsplit := List.takeWhile_append_dropWhile (p := (· = '\n')) (l := cs)
      exact scanHas_tail_false _ _ _ (by rw [hsplit]; exact h.2)
    rw [ih hrest]
    rw [List.cons_append, List.takeWhile_append_dropWhile]
  | case3 c cs hc ih =>
    simp only [hasRun3, scanHas, Bool.or_eq_false_iff] at h
    rw [collapseNl, if_neg hc, ih h.2]

theorem mem_collapseNl {x : Char} {l : List Char} (h : x ∈ collapseNl l) : x ∈ l := by
  induction l using collapseNl.induct with
  | case1 => simp [collapseNl] at h
  | case2 cs ih =>
    rw [collapseNl, if_pos rfl] at h
    rcases List.mem_append.mp h with h | h
    · have : x = '\n' := by
        by_cases h3 : 3 ≤ (cs.takeWhile (· = '\n')).length + 1
        · rw [if_pos h3] at h
          simpa using h
        · rw [if_neg h3] at h
          rcases List.mem_cons.mp h with rfl | h
          · rfl
          · simpa using List.mem_takeWhile_imp h
      rw [this]
      exact List.mem_cons_self '\n' cs
    · have := ih h
      exact List.mem_cons_of_mem '\n' ((List.dropWhile_sublist (· = '\n')).subset this)
  | case3 c cs hc ih =>
    rw [collapseNl, if_neg hc] at h
    rcases List.mem_cons.mp h with rfl | h
    · exact List.mem_cons_self x cs
    · exact List.mem_cons_of_mem c (ih h)

theorem mem_stripWs {x : Char} {l : List Char} (h : x ∈ stripWs l) : x ∈ l := by
  simp only [stripWs, List.mem_reverse] at h
  have h1 := (List.dropWhile_sublist isWs).subset h
  rw [List.mem_reverse] at h1
  exact (List.dropWhile_sublist isWs).subset h1

theorem removeTags_of_no_lt (l : List Char) (h : ('<' : Char) ∉ l) :
    removeTags l = l := by
  induction l using removeTags.induct with
  | case1 => simp [removeTags]
  | case2 c cs htag ih =>
    exfalso
    apply h
    have hc : c = '<' := by
      simp only [tagMatch, Bool.and_eq_true, beq_iff_eq] at htag
      exact htag.1.1
    rw [hc]
    exact List.mem_cons_self '<' cs
  | case3 c cs htag ih =>
    rw [removeTags, if_neg htag, ih (fun hx => h (List.mem_cons_of_mem c hx))]

/-! ### `str.strip` lemmas -/

theorem dropWhile_dw (p : Char → Bool) (l : List Char) :
    List.dropWhile p (List.dropWhile p l) = List.dropWhile p l := by
  induction l with
  | nil => rfl
  | cons c cs ih =>
    by_cases hc : p c
    · rw [List.dropWhile_cons, if_pos hc, ih]
    · rw [List.dropWhile_cons, if_neg hc, List.dropWhile_cons, if_neg hc]

theorem dropWhile_ap_self (p : Char → Bool) (a b : List Char)
    (h : List.dropWhile p (a ++ b) = a ++ b) : List.dropWhile p a = a := by
  cases a with
  | nil => rfl
  | cons c cs =>
    by_cases hc : p c
    · exfalso
      rw [List.cons_append, List.dropWhile_cons, if_pos hc] at h
      have hle := (List.dropWhile_sublist (l := cs ++ b) p).length_le
      rw [h] at hle
      simp at hle
    · rw [List.dropWhile_cons, if_neg hc]

theorem stripWs_split (l : List Char) :
    l.dropWhile isWs =
      stripWs l ++ (((l.dropWhile isWs).reverse.takeWhile isWs)).reverse := by
  conv_lhs => rw [← List.reverse_reverse (l.dropWhile isWs)]
  conv_lhs =>
    rw [← List.takeWhile_append_dropWhile (p := isWs) (l := (l.dropWhile isWs).reverse)]
  rw [List.reverse_append]
  rfl

theorem stripWs_drop (l : List Char) : List.dropWhile isWs (stripWs l) = stripWs l := by
  apply dropWhile_ap_self isWs (stripWs l)
    (((l.dropWhile isWs).reverse.takeWhile isWs).reverse)
  rw [← stripWs_split]
  exact dropWhile_dw isWs l

theorem stripWs_idem (l : List Char) : stripWs (stripWs l) = stripWs l := by
  have h1 : stripWs (stripWs l) =
      ((stripWs l).reverse.dropWhile isWs).reverse := by
    rw [stripWs, stripWs_drop]
  rw [h1]
  have h2 : (stripWs l).reverse = List.dropWhile isWs (l.dropWhile isWs).reverse := by
    rw [stripWs, List.reverse_reverse]
  rw [h2, dropWhile_dw, ← h2, List.reverse_reverse]

theorem stripWs_decomp (l : List Char) :
    ∃ a b, l = a ++ stripWs l ++ b := by
  refine ⟨l.takeWhile isWs, ((l.dropWhile isWs).reverse.takeWhile isWs).reverse, ?_⟩
  have h1 := stripWs_split l
  have h2 := List.takeWhile_append_dropWhile (p := isWs) (l := l)
  rw [List.append_assoc, ← h1, h2]

theorem scanHas_stripWs_false (mm : List Char → Bool)
    (hmm : ∀ s b, mm s = true → mm (s ++ b) = true) (l : List Char)
    (h : scanHas mm l = false) : scanHas mm (stripWs l) = false := by
  obtain ⟨a, b, hab⟩ := stripWs_decomp l
  by_contra hx
  rw [Bool.not_eq_false] at hx
  have h1 := scanHas_append_right mm hmm (stripWs l) b hx
  have h2 := scanHas_append_left mm a _ h1
  rw [← List.append_assoc, ← hab] at h2
  rw [h2] at h
  exact Bool.true_eq_false.mp h

theorem run3_ap (s b : List Char) (h : leadMatch ['\n', '\n', '\n'] s = true) :
    leadMatch ['\n', '\n', '\n'] (s ++ b) = true :=
  leadMatch_ap _ s b h

/-! ### Idempotence of `preprocess_text` on `<`-free inputs -/

theorem preprocessL_idem (l : List Char) (h : ('<' : Char) ∉ l) :
    preprocessL (preprocessL l) = preprocessL l := by
  have hlt1 : ('<' : Char) ∉ sigCut l := fun hx => h ((sigCut_isPre l).subset hx)
  have hlt2 : ('<' : Char) ∉ collapseNl (sigCut l) := fun hx => hlt1 (mem_collapseNl hx)
  have htags : removeTags (collapseNl (sigCut l)) = collapseNl (sigCut l) :=
    removeTags_of_no_lt _ hlt2
  have hP : preprocessL l = stripWs (collapseNl (sigCut l)) := by
    rw [preprocessL, htags]
  have hsig1 : hasSig (collapseNl (sigCut l)) = false :=
    hasSig_collapse _ (hasSig_sigCut l)
  have hrun1 : hasRun3 (collapseNl (sigCut l)) = false := hasRun3_collapse _
  have hsigP : hasSig (preprocessL l) = false := by
    rw [hP]
    exact scanHas_stripWs_false sigMatch sigMatch_ap _ hsig1
  have hrunP : hasRun3 (preprocessL l) = false := by
    rw [hP]
    exact scanHas_stripWs_false _ run3_ap _ hrun1
  have hltP : ('<' : Char) ∉ preprocessL l := by
    rw [hP]
    exact fun hx => hlt2 (mem_stripWs hx)
  rw [preprocessL, sigCut_noSig _ hsigP, collapse_noRun3 _ hrunP,
    removeTags_of_no_lt _ hltP, hP, stripWs_idem]

end DataProcessor

end MBD

namespace MBD

/-! ## Fold lemmas for the keyword scorers (C1, C6, C10) -/

theorem updAdd_zero (m : List (String × ℚ)) (k : String) : updAdd m k 0 = m := by
  induction m with
  | nil => rfl
  | cons p ps ih =>
    simp only [updAdd, List.map_cons] at ih ⊢
    rw [ih]
    by_cases h : p.1 = k
    · simp only [h, beq_self_eq_true, if_true, add_zero]
      exact congrArg (· :: ps) (Prod.ext h.symm rfl)
    · simp [h]

theorem condUpd (m : List (String × ℚ)) (k : String) (a : ℚ) (cond : Prop)
    [Decidable cond] :
    (if cond then updAdd m k a else m) = updAdd m k (if cond then a else 0) := by
  by_cases h : cond
  · simp [h]
  · simp [h, updAdd_zero]

theorem foldl_congr_mem {α β : Type} (l : List β) (f g : α → β → α) (a : α)
    (h : ∀ acc b, b ∈ l → f acc b = g acc b) : l.foldl f a = l.foldl g a := by
  induction l generalizing a with
  | nil => rfl
  | cons x xs ih =>
    rw [List.foldl_cons, List.foldl_cons, h a x (List.mem_cons_self x xs)]
    exact ih _ (fun acc b hb => h acc b (List.mem_cons_of_mem x hb))

theorem any_key_foldl_updAdd {β : Type} (key : β → String) (amt : β → ℚ)
    (tbl : List β) (m : List (String × ℚ)) (c : String) :
    ((tbl.foldl (fun m2 p => updAdd m2 (key p) (amt p)) m)).any (fun q => q.1 == c)
      = m.any (fun q => q.1 == c) := by
  induction tbl generalizing m with
  | nil => rfl
  | cons p ps ih => rw [List.foldl_cons, ih, any_key_updAdd]

theorem lookupD_foldl_updAdd {β : Type} (key : β → String) (amt : β → ℚ)
    (tbl : List β) (m : List (String × ℚ)) (c : String)
    (hk : m.any (fun q => q.1 == c) = true) :
    lookupD (tbl.foldl (fun m2 p => updAdd m2 (key p) (amt p)) m) c 0
      = lookupD m c 0 + ((tbl.filter (fun p => key p == c)).map amt).sum := by
  induction tbl generalizing m with
  | nil => simp
  | cons p ps ih =>
    rw [List.foldl_cons, ih _ (by rw [any_key_updAdd]; exact hk)]
    by_cases hkey : key p = c
    · rw [hkey, lookupD_updAdd_self _ _ _ hk]
      rw [List.filter_cons, if_pos (by simp [hkey]), List.map_cons, List.sum_cons]
      ring
    · rw [lookupD_updAdd_ne _ _ _ _ (fun hcc => hkey hcc.symm)]
      rw [List.filter_cons, if_neg (by simp [hkey])]

theorem lookupD_not_any {α : Type} (m : List (String × α)) (c : String) (dflt : α)
    (h : m.any (fun q => q.1 == c) = false) : lookupD m c dflt = dflt := by
  induction m with
  | nil => rfl
  | cons p ps ih =>
    simp only [List.any_cons, Bool.or_eq_false_iff] at h
    rw [lookupD_cons, if_neg (by simpa using h.1), ih h.2]

end MBD

namespace MBD

namespace ConstraintIdentifier

theorem catFold_eq (m : List (String × ℚ)) (text : String) :
    constraint_keywords.foldl
      (fun m2 p =>
        if 0 < countKw p.2 text then
          updAdd m2 p.1 (min ((countKw p.2 text : ℚ) / (p.2.length : ℚ)) 1)
        else m2) m
      = constraint_keywords.foldl
          (fun m2 p => updAdd m2 p.1 (email_contrib p.2 text)) m := by
  apply foldl_congr_mem
  intro acc b _
  rw [condUpd]
  rfl

theorem keywords_filter (c : String) (kws : List String)
    (h : (c, kws) ∈ constraint_keywords) :
    constraint_keywords.filter (fun p => p.1 == c) = [(c, kws)] := by
  simp only [constraint_keywords, List.mem_cons, Prod.mk.injEq, List.not_mem_nil,
    or_false] at h
  rcases h with ⟨rfl, rfl⟩ | ⟨rfl, rfl⟩ | ⟨rfl, rfl⟩ | ⟨rfl, rfl⟩ | ⟨rfl, rfl⟩ | ⟨rfl, rfl⟩ <;>
    decide

theorem base_any (c : String) (kws : List String) (h : (c, kws) ∈ constraint_keywords) :
    ((constraint_keywords.map (fun p => (p.1, (0 : ℚ)))).any
      (fun q => q.1 == c)) = true := by
  rw [List.any_eq_true]
  exact ⟨(c, 0), List.mem_map.mpr ⟨(c, kws), h, rfl⟩, by simp⟩

theorem lookupD_base (c : String) :
    lookupD (constraint_keywords.map (fun p => (p.1, (0 : ℚ)))) c 0 = 0 := by
  generalize constraint_keywords = tbl
  induction tbl with
  | nil => rfl
  | cons p ps ih =>
    rw [List.map_cons, lookupD_cons]
    by_cases h : p.1 = c
    · simp [h]
    · simpa [h] using ih

theorem texts_fold_lookup (texts : List String) (m : List (String × ℚ)) (c : String)
    (kws : List String) (hmem : (c, kws) ∈ constraint_keywords)
    (hk : m.any (fun q => q.1 == c) = true) :
    lookupD
      (texts.foldl
        (fun m text =>
          constraint_keywords.foldl
            (fun m2 p =>
              if 0 < countKw p.2 text then
                updAdd m2 p.1 (min ((countKw p.2 text : ℚ) / (p.2.length : ℚ)) 1)
              else m2) m) m) c 0
      = lookupD m c 0 + (texts.map (email_contrib kws)).sum := by
  induction texts generalizing m with
  | nil => simp
  | cons t ts ih =>
    rw [List.foldl_cons, catFold_eq]
    rw [ih _ (by rw [any_key_foldl_updAdd]; exact hk)]
    rw [lookupD_foldl_updAdd _ _ _ _ _ hk, keywords_filter c kws hmem]
    simp only [List.map_cons, List.sum_cons, List.map_nil, List.sum_nil, add_zero]
    ring

/-- Closed form of the refactored scorer: score of category `c` is the sum of
the per-email capped contributions divided by `max(#texts, 1)`. -/
theorem identify_constraints_lookup (texts : List String) (c : String)
    (kws : List String) (h : (c, kws) ∈ constraint_keywords) :
    lookupD (identify_constraints texts) c 0
      = (texts.map (email_contrib kws)).sum / ((max texts.length 1 : Nat) : ℚ) := by
  rw [identify_constraints, lookupD_mapDiv]
  rw [texts_fold_lookup texts _ c kws h (base_any c kws h), lookupD_base, zero_add]

theorem email_contrib_nonneg (kws : List String) (text : String) :
    0 ≤ email_contrib kws text := by
  rw [email_contrib]
  by_cases h : 0 < countKw kws text
  · rw [if_pos h]
    exact le_min (div_nonneg (by positivity) (by positivity)) zero_le_one
  · rw [if_neg h]

theorem email_contrib_le_one (kws : List String) (text : String) :
    email_contrib kws text ≤ 1 := by
  rw [email_contrib]
  by_cases h : 0 < countKw kws text
  · rw [if_pos h]
    exact min_le_right _ _
  · rw [if_neg h]
    exact zero_le_one

theorem contrib_sum_nonneg (kws : List String) (texts : List String) :
    0 ≤ (texts.map (email_contrib kws)).sum := by
  apply List.sum_nonneg
  intro x hx
  obtain ⟨t, _, rfl⟩ := List.mem_map.mp hx
  exact email_contrib_nonneg kws t

theorem contrib_sum_le (kws : List String) (texts : List String) :
    (texts.map (email_contrib kws)).sum ≤ (texts.length : ℚ) := by
  induction texts with
  | nil => simp
  | cons t ts ih =>
    rw [List.map_cons, List.sum_cons, List.length_cons]
    push_cast
    have := email_contrib_le_one kws t
    linarith

theorem any_key_identify (texts : List String) (c : String) :
    ((texts.foldl
        (fun m text =>
          constraint_keywords.foldl
            (fun m2 p =>
              if 0 < countKw p.2 text then
                updAdd m2 p.1 (min ((countKw p.2 text : ℚ) / (p.2.length : ℚ)) 1)
              else m2) m)
        (constraint_keywords.map (fun p => (p.1, (0 : ℚ))))).any (fun q => q.1 == c))
      = ((constraint_keywords.map (fun p => (p.1, (0 : ℚ)))).any (fun q => q.1 == c)) := by
  generalize (constraint_keywords.map (fun p => (p.1, (0 : ℚ)))) = m
  induction texts generalizing m with
  | nil => rfl
  | cons t ts ih =>
    rw [List.foldl_cons, catFold_eq, ih, any_key_foldl_updAdd]

end ConstraintIdentifier

end MBD

namespace MBD

theorem lookupD_val_mem {α : Type} (m : List (String × α)) (k : String) (dflt : α) :
    lookupD m k dflt = dflt ∨ ∃ key, (key, lookupD m k dflt) ∈ m := by
  cases hf : m.find? (fun p => p.1 == k) with
  | none =>
    left
    simp [lookupD, hf]
  | some p =>
    right
    refine ⟨p.1, ?_⟩
    have hp := List.mem_of_find?_eq_some hf
    simp only [lookupD, hf]
    exact hp

namespace ConstraintAnalyzer

theorem overlay_target_eq (dept : String) :
    ∀ kw ∈ lookupD ConstraintIdentifier.department_constraints dept [],
      overlayTarget kw = specOverlayTarget kw := by
  intro kw hkw
  rcases lookupD_val_mem ConstraintIdentifier.department_constraints dept [] with h | ⟨key, hmem⟩
  · rw [h] at hkw
    simp at hkw
  · simp only [ConstraintIdentifier.department_constraints, List.mem_cons, Prod.mk.injEq,
      List.not_mem_nil, or_false] at hmem hkw
    rcases hmem with ⟨_, hv⟩ | ⟨_, hv⟩ | ⟨_, hv⟩ | ⟨_, hv⟩ | ⟨_, hv⟩ | ⟨_, hv⟩ <;>
      rw [hv] at hkw <;>
      simp only [List.mem_cons, List.not_mem_nil, or_false] at hkw <;>
      rcases hkw with rfl | rfl | rfl | rfl | rfl <;> decide

/-- The legacy scorer's department-overlay block routes every matched keyword
exactly as the specification's case-insensitive budget/cost/feature/requirement
rule does. -/
theorem overlayStep_eq_spec (m : List (String × ℚ)) (dept text : String) :
    overlayStep m dept text = specOverlayStep m dept text := by
  apply foldl_congr_mem
  intro acc kw hkw
  rw [overlay_target_eq dept kw hkw]

end ConstraintAnalyzer

end MBD

namespace MBD

theorem lookupD_foldl_updAdd_ne {β : Type} (key : β → String) (amt : β → ℚ)
    (tbl : List β) (m : List (String × ℚ)) (c : String)
    (h : ∀ p ∈ tbl, key p ≠ c) :
    lookupD (tbl.foldl (fun m2 p => updAdd m2 (key p) (amt p)) m) c 0
      = lookupD m c 0 := by
  induction tbl generalizing m with
  | nil => rfl
  | cons p ps ih =>
    rw [List.foldl_cons, ih _ (fun q hq => h q (List.mem_cons_of_mem p hq)),
      lookupD_updAdd_ne _ _ _ _ (fun hcc => h p (List.mem_cons_self p ps) hcc.symm)]

theorem sum_ite_half (kws : List String) (p : String → Bool) :
    ((kws.map (fun kw => if p kw = true then (1 : ℚ) / 2 else 0)).sum)
      = ((kws.filter p).length : ℚ) / 2 := by
  induction kws with
  | nil => simp
  | cons kw rest ih =>
    rw [List.map_cons, List.sum_cons, List.filter_cons, ih]
    by_cases h : p kw = true
    · rw [if_pos h, if_pos h, List.length_cons]
      push_cast
      ring
    · rw [if_neg h, if_neg (by simpa using h), zero_add]

namespace DepartmentAnalyzer

/-- In the refactored department analyzer, the overlay adds 0.5 to
`process_issues` for each matched department keyword and touches no other
category. -/
theorem overlay_step_lookup (m : List (String × ℚ)) (dept textLower c : String)
    (hk : m.any (fun q => q.1 == "process_issues") = true) :
    lookupD (overlay_step m dept textLower) c 0
      = lookupD m c 0 +
        (if c = "process_issues" then
          (((lookupD ConstraintIdentifier.department_constraints dept []).filter
              (fun kw => strIn kw textLower)).length : ℚ) / 2
         else 0) := by
  have hrw : overlay_step m dept textLower
      = (lookupD ConstraintIdentifier.department_constraints dept []).foldl
          (fun m2 kw =>
            updAdd m2 "process_issues" (if strIn kw textLower = true then (1 : ℚ) / 2 else 0))
          m := by
    apply foldl_congr_mem
    intro acc kw _
    exact condUpd acc "process_issues" (1 / 2) (strIn kw textLower = true)
  rw [hrw]
  by_cases hc : c = "process_issues"
  · subst hc
    rw [lookupD_foldl_updAdd (fun _ => "process_issues")
      (fun kw => if strIn kw textLower = true then (1 : ℚ) / 2 else 0) _ _ _ hk]
    rw [if_pos rfl]
    congr 1
    rw [List.filter_eq_self.mpr (by intro a _; simp)]
    exact sum_ite_half _ (fun kw => strIn kw textLower)
  · rw [lookupD_foldl_updAdd_ne _ _ _ _ _ (fun p _ hcc => hc hcc.symm), if_neg hc, add_zero]

end DepartmentAnalyzer

namespace RecommendationGenerator

theorem recLoop_sublist (l : List (String × ℚ)) (n : Nat) :
    (recLoop l n).Sublist (l.map (fun p => ⟨p.1, p.2, calculate_priority p.2⟩)) := by
  induction l generalizing n with
  | nil => simp [recLoop]
  | cons p rest ih =>
    obtain ⟨c, s⟩ := p
    rw [recLoop]
    by_cases h1 : s < 1 / 10
    · rw [if_pos h1]
      exact (ih n).cons _
    · rw [if_neg h1]
      by_cases h2 : ¬ has_template c = true
      · rw [if_pos h2]
        exact (ih n).cons _
      · rw [if_neg h2]
        by_cases h3 : 5 ≤ n + 1
        · rw [if_pos h3, List.map_cons]
          exact (List.nil_sublist _).cons₂ _
        · rw [if_neg h3, List.map_cons]
          exact (ih (n + 1)).cons₂ _

theorem recLoop_score (l : List (String × ℚ)) (n : Nat) :
    ∀ r ∈ recLoop l n, (1 : ℚ) / 10 ≤ r.score := by
  induction l generalizing n with
  | nil => simp [recLoop]
  | cons p rest ih =>
    obtain ⟨c, s⟩ := p
    intro r hr
    rw [recLoop] at hr
    by_cases h1 : s < 1 / 10
    · rw [if_pos h1] at hr
      exact ih n r hr
    · rw [if_neg h1] at hr
      by_cases h2 : ¬ has_template c = true
      · rw [if_pos h2] at hr
        exact ih n r hr
      · rw [if_neg h2] at hr
        by_cases h3 : 5 ≤ n + 1
        · rw [if_pos h3] at hr
          rcases List.mem_cons.mp hr with rfl | hr
          · exact le_of_not_lt h1
          · simp at hr
        · rw [if_neg h3] at hr
          rcases List.mem_cons.mp hr with rfl | hr
          · exact le_of_not_lt h1
          · exact ih (n + 1) r hr

theorem recLoop_length (l : List (String × ℚ)) (n : Nat) (h : n < 5) :
    (recLoop l n).length ≤ 5 - n := by
  induction l generalizing n with
  | nil => simp [recLoop]
  | cons p rest ih =>
    obtain ⟨c, s⟩ := p
    rw [recLoop]
    by_cases h1 : s < 1 / 10
    · rw [if_pos h1]
      exact ih n h
    · rw [if_neg h1]
      by_cases h2 : ¬ has_template c = true
      · rw [if_pos h2]
        exact ih n h
      · rw [if_neg h2]
        by_cases h3 : 5 ≤ n + 1
        · rw [if_pos h3]
          simp only [List.length_cons, List.length_nil]
          omega
        · rw [if_neg h3]
          have := ih (n + 1) (by omega)
          simp only [List.length_cons]
          omega

end RecommendationGenerator

namespace ConstraintAnalyzer

theorem titleFor_ne (c : String) : titleFor c ≠ "Improve Team Response Time" := by
  rw [titleFor]
  rcases lookupD_val_mem
      [("deadline_issues", "Address Project Timeline Bottlenecks"),
       ("approval_bottlenecks", "Streamline Approval Processes"),
       ("resource_constraints", "Reallocate Resources to Critical Paths"),
       ("skill_gaps", "Close Knowledge and Skill Gaps"),
       ("process_issues", "Improve Inefficient Workflows"),
       ("communication_problems", "Resolve Communication Breakdowns")]
      c "Address Organizational Constraint" with h | ⟨key, hmem⟩
  · rw [h]
    decide
  · simp only [List.mem_cons, Prod.mk.injEq, List.not_mem_nil, or_false] at hmem
    rcases hmem with ⟨_, hv⟩ | ⟨_, hv⟩ | ⟨_, hv⟩ | ⟨_, hv⟩ | ⟨_, hv⟩ | ⟨_, hv⟩ <;>
      rw [hv] <;> decide

theorem base_rec_ne (scores : List (String × ℚ)) :
    ∀ r ∈ base_recommendations scores, r ≠ response_time_rec := by
  intro r hr
  rw [base_recommendations] at hr
  obtain ⟨p, _, rfl⟩ := List.mem_map.mp hr
  intro hcon
  have := congrArg Rec.title hcon
  exact titleFor_ne p.1 this

end ConstraintAnalyzer

end MBD

namespace MBD

/-! ## Counter-dict (`bump`) lemmas for `extract_key_projects` (C5) -/

theorem lookupD_mapAddNat_self (m : List (String × Nat)) (k : String) (v : Nat)
    (h : m.any (fun p => p.1 == k) = true) :
    lookupD (m.map (fun p => if p.1 == k then (p.1, p.2 + v) else p)) k 0
      = lookupD m k 0 + v := by
  induction m with
  | nil => simp at h
  | cons p ps ih =>
    simp only [List.any_cons, Bool.or_eq_true, beq_iff_eq] at h
    by_cases hp : p.1 = k
    · simp [lookupD_cons, hp]
    · have h' : ps.any (fun p => p.1 == k) = true := by
        rcases h with h | h
        · exact absurd h hp
        · exact h
      rw [List.map_cons, if_neg (by simpa using hp), lookupD_cons, if_neg hp,
        lookupD_cons, if_neg hp]
      exact ih h'

theorem lookupD_mapAddNat_ne (m : List (String × Nat)) (k k' : String) (v : Nat)
    (h : k' ≠ k) :
    lookupD (m.map (fun p => if p.1 == k then (p.1, p.2 + v) else p)) k' 0
      = lookupD m k' 0 := by
  induction m with
  | nil => rfl
  | cons p ps ih =>
    by_cases hp : p.1 = k
    · rw [List.map_cons, if_pos (by simpa using hp), lookupD_cons, lookupD_cons]
      simp only []
      rw [if_neg (by rw [hp]; exact fun hh => h hh.symm),
        if_neg (by rw [hp]; exact fun hh => h hh.symm)]
      exact ih
    · rw [List.map_cons, if_neg (by simpa using hp), lookupD_cons, lookupD_cons]
      by_cases hk : p.1 = k'
      · simp [hk]
      · simp only [if_neg hk]
        exact ih

theorem lookupD_append (a b : List (String × Nat)) (k : String) :
    lookupD (a ++ b) k 0
      = if a.any (fun q => q.1 == k) then lookupD a k 0 else lookupD b k 0 := by
  induction a with
  | nil => simp
  | cons p ps ih =>
    rw [List.cons_append, lookupD_cons, lookupD_cons, List.any_cons]
    by_cases hp : p.1 = k
    · simp [hp]
    · simp only [if_neg hp, ih]
      have : (p.1 == k) = false := by simpa using hp
      rw [this, Bool.false_or]

theorem bump_lookup (m : List (String × Nat)) (k : String) (v : Nat) (k' : String) :
    lookupD (bump m k v) k' 0 = lookupD m k' 0 + (if k' = k then v else 0) := by
  rw [bump]
  by_cases hany : m.any (fun p => p.1 == k) = true
  · rw [if_pos hany]
    by_cases hk : k' = k
    · subst hk
      rw [lookupD_mapAddNat_self m k' v hany, if_pos rfl]
    · rw [lookupD_mapAddNat_ne m k k' v hk, if_neg hk, add_zero]
  · rw [if_neg hany, lookupD_append]
    have hany' : m.any (fun p => p.1 == k) = false := by
      simp only [Bool.not_eq_true] at hany
      exact hany
    by_cases hk : k' = k
    · subst hk
      rw [if_neg hany, lookupD_not_any m k' 0 hany', if_pos rfl]
      simp [lookupD_cons]
    · rw [if_neg hk]
      by_cases hin : m.any (fun q => q.1 == k') = true
      · rw [if_pos hin, add_zero]
      · have hin' : m.any (fun q => q.1 == k') = false := by
          simp only [Bool.not_eq_true] at hin
          exact hin
        rw [if_neg hin, lookupD_not_any m k' 0 hin', add_zero,
          lookupD_cons, if_neg (fun hh => hk hh.symm)]
        rfl

theorem bumpFold_lookup (evs : List (String × Nat)) (m : List (String × Nat))
    (k : String) :
    lookupD (evs.foldl (fun m2 ev => bump m2 ev.1 ev.2) m) k 0
      = lookupD m k 0 + ((evs.filter (fun ev => ev.1 == k)).map (·.2)).sum := by
  induction evs generalizing m with
  | nil => simp
  | cons ev rest ih =>
    rw [List.foldl_cons, ih, bump_lookup, List.filter_cons]
    by_cases hk : ev.1 = k
    · simp only [hk, beq_self_eq_true, if_true, List.map_cons, List.sum_cons]
      omega
    · have h1 : (ev.1 == k) = false := by simpa using hk
      have h2 : ¬ (k = ev.1) := fun hh => hk hh.symm
      simp only [h1, Bool.false_eq_true, if_false, if_neg h2, add_zero]

theorem mapW_filter (names : List String) (w : Nat) (k : String) :
    (((names.map (fun n => (n, w))).filter (fun ev => ev.1 == k)).map (·.2))
      = (names.filter (fun n => n == k)).map (fun _ => w) := by
  induction names with
  | nil => rfl
  | cons n rest ih =>
    rw [List.map_cons, List.filter_cons, List.filter_cons]
    by_cases h : n = k
    · rw [if_pos (by simpa using h), if_pos (by simpa using h), List.map_cons, List.map_cons, ih]
    · rw [if_neg (by simpa using h), if_neg (by simpa using h), ih]

theorem sum_map_const (l : List String) (w : Nat) :
    ((l.map (fun _ => w)).sum) = w * l.length := by
  induction l with
  | nil => simp
  | cons x rest ih =>
    rw [List.map_cons, List.sum_cons, ih, List.length_cons]
    ring

theorem filter_beq_length (names : List String) (k : String) :
    (names.filter (fun n => n == k)).length = names.count k := by
  induction names with
  | nil => rfl
  | cons n rest ih =>
    rw [List.filter_cons, List.count_cons]
    by_cases h : n = k
    · rw [if_pos (by simpa using h), List.length_cons, ih]
      simp [h]
    · rw [if_neg (by simpa using h), ih]
      simp [h]

namespace DataHelpers

theorem events_filter_sum (e : RawEmail) (k : String) :
    ((((email_project_events e).filter (fun ev => ev.1 == k)).map (·.2)).sum)
      = 2 * (valid_names e.subject).count k + (valid_names e.body).count k := by
  rw [email_project_events, List.filter_append, List.map_append, List.sum_append,
    mapW_filter, mapW_filter, sum_map_const, sum_map_const, filter_beq_length,
    filter_beq_length]
  ring

/-- Closed form of the `project_mentions` dict: subject occurrences count
twice, body occurrences once. -/
theorem project_tally_lookup (emails : List RawEmail) (k : String) :
    lookupD (project_tally emails) k 0
      = 2 * ((emails.map (fun e => (valid_names e.subject).count k)).sum)
        + ((emails.map (fun e => (valid_names e.body).count k)).sum) := by
  rw [project_tally, bumpFold_lookup, lookupD_nil, zero_add]
  induction emails with
  | nil => simp
  | cons e rest ih =>
    rw [List.map_cons, List.flatten_cons, List.filter_append, List.map_append,
      List.sum_append, ih, events_filter_sum, List.map_cons, List.sum_cons,
      List.map_cons, List.sum_cons]
    ring

end DataHelpers

end MBD

namespace MBD

theorem contains_keys (m : List (String × Nat)) (k : String) :
    (m.map Prod.fst).contains k = m.any (fun q => q.1 == k) := by
  induction m with
  | nil => rfl
  | cons p ps ih =>
    rw [List.map_cons, List.contains_cons, List.any_cons]
    by_cases h : p.1 = k
    · simp [h]
    · have h1 : (k == p.1) = false := beq_eq_false_iff_ne.mpr (fun hh => h hh.symm)
      have h2 : (p.1 == k) = false := beq_eq_false_iff_ne.mpr h
      rw [h1, h2, Bool.false_or, Bool.false_or, ih]

theorem mapAddNat_keys (m : List (String × Nat)) (k : String) (v : Nat) :
    ((m.map (fun p => if p.1 == k then (p.1, p.2 + v) else p)).map Prod.fst)
      = m.map Prod.fst := by
  induction m with
  | nil => rfl
  | cons p ps ih =>
    simp only [List.map_cons] at ih ⊢
    by_cases h : p.1 = k
    · simpa [h] using ih
    · simpa [h] using ih

theorem bump_keys (m : List (String × Nat)) (k : String) (v : Nat) :
    (bump m k v).map Prod.fst
      = if m.any (fun q => q.1 == k) then m.map Prod.fst
        else m.map Prod.fst ++ [k] := by
  rw [bump]
  by_cases hany : m.any (fun q => q.1 == k) = true
  · rw [if_pos hany, if_pos hany, mapAddNat_keys]
  · rw [if_neg hany, if_neg hany, List.map_append]
    rfl

theorem bumpFold_keys (evs : List (String × Nat)) (m : List (String × Nat)) :
    ((evs.foldl (fun m2 ev => bump m2 ev.1 ev.2) m).map Prod.fst)
      = (evs.map Prod.fst).foldl
          (fun acc k => if acc.contains k then acc else acc ++ [k])
          (m.map Prod.fst) := by
  induction evs generalizing m with
  | nil => rfl
  | cons ev rest ih =>
    rw [List.foldl_cons, List.map_cons, List.foldl_cons, ih, bump_keys, contains_keys]

namespace DataHelpers

/-- The keys of the `project_mentions` dict are the candidate names in
first-seen order. -/
theorem project_tally_keys (emails : List RawEmail) :
    (project_tally emails).map Prod.fst
      = first_seen ((emails.map email_project_events).flatten.map Prod.fst) := by
  rw [project_tally, first_seen, bumpFold_keys]
  rfl

end DataHelpers

end MBD

namespace MBD

namespace ConstraintAnalyzer

theorem overlayStep_unfold (m : List (String × ℚ)) (dept text : String) :
    overlayStep m dept text
      = (lookupD ConstraintIdentifier.department_constraints dept []).foldl
          (fun m2 kw =>
            updAdd m2 (overlayTarget kw)
              (if strIn (lowerStr kw) (lowerStr text) = true then (1 : ℚ) / 2 else 0))
          m := by
  apply foldl_congr_mem
  intro acc kw _
  exact condUpd acc (overlayTarget kw) (1 / 2) (strIn (lowerStr kw) (lowerStr text) = true)

theorem any_key_overlayStep (m : List (String × ℚ)) (dept text c : String) :
    (overlayStep m dept text).any (fun q => q.1 == c) = m.any (fun q => q.1 == c) := by
  rw [overlayStep_unfold, any_key_foldl_updAdd]

theorem overlayStep_lookup (m : List (String × ℚ)) (dept text c : String)
    (hk : m.any (fun q => q.1 == c) = true) :
    lookupD (overlayStep m dept text) c 0
      = lookupD m c 0 + overlay_amount dept text c := by
  rw [overlayStep_unfold, lookupD_foldl_updAdd _ _ _ _ _ hk]
  congr 1
  rw [overlay_amount, ← sum_ite_half _ (fun kw => strIn (lowerStr kw) (lowerStr text))]

end ConstraintAnalyzer

end MBD

namespace MBD

namespace ConstraintAnalyzer

theorem catFoldCI_lookup (m : List (String × ℚ)) (text : String) (c : String)
    (kws : List String) (hmem : (c, kws) ∈ ConstraintIdentifier.constraint_keywords)
    (hk : m.any (fun q => q.1 == c) = true) :
    lookupD
      (ConstraintIdentifier.constraint_keywords.foldl
        (fun m2 p => updAdd m2 p.1 ((countKwCI p.2 text : ℚ))) m) c 0
      = lookupD m c 0 + (countKwCI kws text : ℚ) := by
  rw [lookupD_foldl_updAdd _ _ _ _ _ hk, ConstraintIdentifier.keywords_filter c kws hmem]
  simp

theorem analyzer_emails_fold (emails : List BertEmail) (m : List (String × ℚ))
    (c : String) (kws : List String)
    (hmem : (c, kws) ∈ ConstraintIdentifier.constraint_keywords)
    (hk : m.any (fun q => q.1 == c) = true) :
    lookupD
      (emails.foldl
        (fun m e =>
          overlayStep
            (ConstraintIdentifier.constraint_keywords.foldl
              (fun m2 p => updAdd m2 p.1 ((countKwCI p.2 (emailText e) : ℚ))) m)
            e.sender_dept (emailText e))
        m) c 0
      = lookupD m c 0 +
        (emails.map
          (fun e => (countKwCI kws (emailText e) : ℚ)
            + overlay_amount e.sender_dept (emailText e) c)).sum := by
  induction emails generalizing m with
  | nil => simp
  | cons e rest ih =>
    rw [List.foldl_cons]
    rw [ih _ (by rw [any_key_overlayStep, any_key_foldl_updAdd]; exact hk)]
    rw [overlayStep_lookup _ _ _ _ (by rw [any_key_foldl_updAdd]; exact hk)]
    rw [catFoldCI_lookup _ _ _ _ hmem hk]
    rw [List.map_cons, List.sum_cons]
    ring

/-- Closed form of the legacy scorer (`constraint_analyzer.py`): score of
category `c` is the sum over emails of the raw matched-keyword count plus the
overlay mass routed to `c`, divided by the email count (minimum divisor 1 —
the Python code skips the division entirely when there are no emails, in
which case every total is 0 and the two readings agree). -/
theorem analyzer_identify_lookup (emails : List BertEmail) (c : String)
    (kws : List String) (hmem : (c, kws) ∈ ConstraintIdentifier.constraint_keywords) :
    lookupD (identify_constraints emails) c 0
      = (emails.map
          (fun e => (countKwCI kws (emailText e) : ℚ)
            + overlay_amount e.sender_dept (emailText e) c)).sum
          / ((max emails.length 1 : Nat) : ℚ) := by
  rw [identify_constraints]
  cases emails with
  | nil =>
    simp only [List.length_nil, if_pos rfl, List.foldl_nil, List.map_nil, List.sum_nil,
      zero_div]
    exact ConstraintIdentifier.lookupD_base c
  | cons e rest =>
    rw [if_neg (by simp)]
    rw [lookupD_mapDiv]
    rw [analyzer_emails_fold _ _ c kws hmem (ConstraintIdentifier.base_any c kws hmem)]
    rw [ConstraintIdentifier.lookupD_base, zero_add]
    have : ((max (e :: rest).length 1 : Nat) : ℚ) = ((e :: rest).length : ℚ) := by
      rw [Nat.max_eq_left (by simp)]
    rw [this]

end ConstraintAnalyzer

end MBD

namespace MBD

theorem strLeL_total (a b : List Char) : strLeL a b = true ∨ strLeL b a = true := by
  induction a generalizing b with
  | nil => left; rfl
  | cons x xs ih =>
    cases b with
    | nil => right; rfl
    | cons y ys =>
      rcases Nat.lt_trichotomy x.toNat y.toNat with h | h | h
      · left
        rw [strLeL, if_pos h]
      · rcases ih ys with h2 | h2
        · left
          rw [strLeL, if_neg (by omega), if_neg (by omega)]
          exact h2
        · right
          rw [strLeL, if_neg (by omega), if_neg (by omega)]
          exact h2
      · right
        rw [strLeL, if_pos h]

theorem strLeL_trans (a b c : List Char) (h1 : strLeL a b = true)
    (h2 : strLeL b c = true) : strLeL a c = true := by
  induction a generalizing b c with
  | nil => rfl
  | cons x xs ih =>
    cases b with
    | nil => simp [strLeL] at h1
    | cons y ys =>
      cases c with
      | nil => simp [strLeL] at h2
      | cons z zs =>
        rw [strLeL] at h1 h2 ⊢
        by_cases hxy : x.toNat < y.toNat
        · by_cases hyz : y.toNat < z.toNat
          · rw [if_pos (by omega)]
          · rw [if_neg hyz] at h2
            by_cases hzy : z.toNat < y.toNat
            · rw [if_pos hzy] at h2
              exact absurd h2 (by simp)
            · rw [if_pos (by omega)]
        · rw [if_neg hxy] at h1
          by_cases hyx : y.toNat < x.toNat
          · rw [if_pos hyx] at h1
            exact absurd h1 (by simp)
          · rw [if_neg hyx] at h1
            by_cases hyz : y.toNat < z.toNat
            · rw [if_pos (by omega)]
            · rw [if_neg hyz] at h2
              by_cases hzy : z.toNat < y.toNat
              · rw [if_pos hzy] at h2
                exact absurd h2 (by simp)
              · rw [if_neg hzy] at h2
                rw [if_neg (by omega), if_neg (by omega)]
                exact ih ys zs h1 h2

theorem strLe_total (a b : String) : strLe a b = true ∨ strLe b a = true :=
  strLeL_total a.data b.data

theorem strLe_trans (a b c : String) (h1 : strLe a b = true) (h2 : strLe b c = true) :
    strLe a c = true :=
  strLeL_trans a.data b.data c.data h1 h2

end MBD

namespace MBD

theorem strLe_refl (a : String) : strLe a a = true := by
  rw [strLe]
  induction a.data with
  | nil => rfl
  | cons x xs ih =>
    rw [strLeL, if_neg (by omega), if_neg (by omega)]
    exact ih

end MBD

/-! # Claim theorems -/

open MBD

/-- C1 (counterexample): on the single email text `"deadline late"`, the
refactored scorer gives `deadline_issues` the score `min(2/6, 1) = 1/3`,
whereas the claimed binary-presence rule gives `1` — each email does **not**
contribute "exactly 1" when a keyword is present. -/
theorem C1_counterexample :
    lookupD (ConstraintIdentifier.identify_constraints ["deadline late"])
        "deadline_issues" 0 = 1 / 3 ∧
    ConstraintIdentifier.spec_binary_score ["deadline late"]
        ["deadline", "late", "delay", "overdue", "behind", "schedule"] = 1 ∧
    (1 : ℚ) / 3 ≠ 1 := by
  refine ⟨?_, ?_, by norm_num⟩
  · rw [ConstraintIdentifier.identify_constraints_lookup _ _
      ["deadline", "late", "delay", "overdue", "behind", "schedule"] (by decide)]
    norm_num [ConstraintIdentifier.email_contrib,
      show ConstraintIdentifier.countKw
        ["deadline", "late", "delay", "overdue", "behind", "schedule"] "deadline late" = 2
      from by decide]
  · rw [ConstraintIdentifier.spec_binary_score]
    norm_num [show ConstraintIdentifier.countKw
        ["deadline", "late", "delay", "overdue", "behind", "schedule"] "deadline late" = 2
      from by decide]

/-- C1 (amended): the scorers are frequency-based, not binary.  In
`analysis/constraints.py` each email contributes
`min(matchedKeywordCount / keywordListLength, 1)` to a category; in
`constraint_analyzer.py` each email contributes the raw matched-keyword count
plus the department-overlay mass routed to the category.  Totals are divided
by the email count with minimum divisor 1 (the legacy module skips the
division entirely when the count is 0, where all totals are 0 anyway). -/
theorem C1_amended :
    (∀ (texts : List String) (c : String) (kws : List String),
      (c, kws) ∈ ConstraintIdentifier.constraint_keywords →
      lookupD (ConstraintIdentifier.identify_constraints texts) c 0
        = (texts.map (ConstraintIdentifier.email_contrib kws)).sum
            / ((max texts.length 1 : Nat) : ℚ))
    ∧ (∀ (emails : List ConstraintAnalyzer.BertEmail) (c : String) (kws : List String),
      (c, kws) ∈ ConstraintIdentifier.constraint_keywords →
      lookupD (ConstraintAnalyzer.identify_constraints emails) c 0
        = (emails.map
            (fun e => (ConstraintAnalyzer.countKwCI kws (ConstraintAnalyzer.emailText e) : ℚ)
              + ConstraintAnalyzer.overlay_amount e.sender_dept
                  (ConstraintAnalyzer.emailText e) c)).sum
            / ((max emails.length 1 : Nat) : ℚ)) :=
  ⟨fun texts c kws h => ConstraintIdentifier.identify_constraints_lookup texts c kws h,
   fun emails c kws h => ConstraintAnalyzer.analyzer_identify_lookup emails c kws h⟩

/-- C1 (witness for the amended theorem at a concrete input). -/
theorem C1_witness :
    ("deadline_issues", ["deadline", "late", "delay", "overdue", "behind", "schedule"])
        ∈ ConstraintIdentifier.constraint_keywords ∧
    lookupD (ConstraintIdentifier.identify_constraints ["deadline late"])
        "deadline_issues" 0
      = (["deadline late"].map (ConstraintIdentifier.email_contrib
          ["deadline", "late", "delay", "overdue", "behind", "schedule"])).sum
          / ((max (["deadline late"] : List String).length 1 : Nat) : ℚ) :=
  ⟨by decide, C1_amended.1 ["deadline late"] "deadline_issues"
    ["deadline", "late", "delay", "overdue", "behind", "schedule"] (by decide)⟩

/-- C10: every category score produced by the refactored scorer
(`analysis/constraints.py`) lies in `[0, 1]`: the per-email contribution is
capped at 1 and the total is divided by `max(#emails, 1)`. -/
theorem C10_theorem (texts : List String) (c : String) :
    0 ≤ lookupD (ConstraintIdentifier.identify_constraints texts) c 0 ∧
    lookupD (ConstraintIdentifier.identify_constraints texts) c 0 ≤ 1 := by
  have hden : (0 : ℚ) < ((max texts.length 1 : Nat) : ℚ) := by
    have : 1 ≤ max texts.length 1 := le_max_right _ _
    exact_mod_cast Nat.lt_of_lt_of_le Nat.zero_lt_one this
  by_cases hk : ((ConstraintIdentifier.constraint_keywords.map
      (fun p => (p.1, (0 : ℚ)))).any (fun q => q.1 == c)) = true
  · obtain ⟨q, hq, hbeq⟩ := List.any_eq_true.mp hk
    obtain ⟨p, hp, rfl⟩ := List.mem_map.mp hq
    have hc : p.1 = c := by simpa using hbeq
    subst hc
    rw [ConstraintIdentifier.identify_constraints_lookup texts p.1 p.2
      (by rw [show (p.1, p.2) = p from rfl]; exact hp)]
    constructor
    · exact div_nonneg (ConstraintIdentifier.contrib_sum_nonneg p.2 texts) (le_of_lt hden)
    · rw [div_le_one hden]
      calc (texts.map (ConstraintIdentifier.email_contrib p.2)).sum
          ≤ (texts.length : ℚ) := ConstraintIdentifier.contrib_sum_le p.2 texts
        _ ≤ ((max texts.length 1 : Nat) : ℚ) := by
            exact_mod_cast Nat.cast_le.mpr (le_max_left _ _)
  · rw [ConstraintIdentifier.identify_constraints, lookupD_mapDiv]
    rw [lookupD_not_any _ _ _ (by
      rw [ConstraintIdentifier.any_key_identify]
      simp only [Bool.not_eq_true] at hk
      exact hk)]
    rw [zero_div]
    exact ⟨le_refl 0, zero_le_one⟩

/-- C2 (counterexample): `preprocess_text` is not idempotent.  On
`"a-<b>-\nc"` the tag removal glues the two hyphens together, so a second
pass sees a signature marker `--\n` and truncates:
`normalize("a-<b>-\nc") = "a--\nc"` but `normalize(normalize(·)) = "a"`. -/
theorem C2_counterexample :
    DataProcessor.preprocess_text (DataProcessor.preprocess_text "a-<b>-\nc")
      ≠ DataProcessor.preprocess_text "a-<b>-\nc" := by
  have h1 : DataProcessor.preprocess_text "a-<b>-\nc" = "a--\nc" := by
    simp only [DataProcessor.preprocess_text, DataProcessor.preprocessL]
    simp +decide [DataProcessor.sigCut, DataProcessor.sigMatch, DataProcessor.collapseNl,
      DataProcessor.removeTags, DataProcessor.tagMatch, DataProcessor.stripWs, isWs]
  have h2 : DataProcessor.preprocess_text "a--\nc" = "a" := by
    simp only [DataProcessor.preprocess_text, DataProcessor.preprocessL]
    simp +decide [DataProcessor.sigCut, DataProcessor.sigMatch, DataProcessor.collapseNl,
      DataProcessor.removeTags, DataProcessor.tagMatch, DataProcessor.stripWs, isWs]
  rw [h1, h2]
  decide

/-- C2 (amended): `preprocess_text` is idempotent on every input that
contains no `<` character (so the tag-removal pass cannot create new
signature markers or newline runs): for such `t`,
`normalize(normalize(t)) = normalize(t)`. -/
theorem C2_amended (s : String) (h : ('<' : Char) ∉ s.data) :
    DataProcessor.preprocess_text (DataProcessor.preprocess_text s)
      = DataProcessor.preprocess_text s := by
  rw [DataProcessor.preprocess_text, DataProcessor.preprocess_text]
  show String.mk (DataProcessor.preprocessL (DataProcessor.preprocessL s.data))
    = String.mk (DataProcessor.preprocessL s.data)
  rw [DataProcessor.preprocessL_idem s.data h]

/-- C2 (witness): idempotence at a concrete `<`-free input. -/
theorem C2_witness :
    ('<' : Char) ∉ ("hello\n\n\n\nworld --  \nsig" : String).data ∧
    DataProcessor.preprocess_text
        (DataProcessor.preprocess_text "hello\n\n\n\nworld --  \nsig")
      = DataProcessor.preprocess_text "hello\n\n\n\nworld --  \nsig" :=
  ⟨by decide, C2_amended "hello\n\n\n\nworld --  \nsig" (by decide)⟩

/-- C3 (counterexample): threads are ordered by the raw timestamp *string*,
not by parsed timestamps.  Two emails in one thread carry timestamps in two
of the accepted formats; chronologically `2024/01/02 00:00:00` precedes
`2024-01-03T00:00:00`, but the string sort puts the later email first
(`'-' < '/'`), so the parsable timestamps do not appear in non-decreasing
chronological order. -/
theorem C3_counterexample :
    DataHelpers.create_email_threads
        [⟨some "a", [], [], "S", "", none, some "2024/01/02 00:00:00", "1"⟩,
         ⟨some "b", [], [], "S", "", none, some "2024-01-03T00:00:00", "2"⟩]
      = [("thread_1",
          [⟨some "b", [], [], "S", "", none, some "2024-01-03T00:00:00", "2"⟩,
           ⟨some "a", [], [], "S", "", none, some "2024/01/02 00:00:00", "1"⟩])] ∧
    (DataHelpers.parse_timestamp "2024/01/02 00:00:00").isSome = true ∧
    (DataHelpers.parse_timestamp "2024-01-03T00:00:00").isSome = true ∧
    (DataHelpers.parse_timestamp "2024/01/02 00:00:00").getD 0
      < (DataHelpers.parse_timestamp "2024-01-03T00:00:00").getD 0 := by
  exact ⟨by decide, by decide, by decide, by decide⟩

/-- C3 (amended): within each reconstructed thread, when every email has a
`timestamp` key the emails are stable-sorted by the raw timestamp string
ascending — the output is a permutation of the group, its timestamp strings
are non-decreasing, and emails with equal (in particular missing-equal)
timestamp strings keep their relative input order; when any email lacks a
timestamp the thread keeps the original input order.  Nothing is dropped. -/
theorem C3_amended (emails : List RawEmail) (p : Nat × (String × List RawEmail))
    (hp : p ∈ (DataHelpers.group_emails emails).enum) :
    ∃ es, ("thread_" ++ toString (p.1 + 1), es) ∈ DataHelpers.create_email_threads emails ∧
      es.Perm p.2.2 ∧
      ((∀ e ∈ p.2.2, e.timestamp.isSome = true) →
        es.Pairwise (fun a b => strLe (DataHelpers.tsKey a) (DataHelpers.tsKey b) = true) ∧
        (∀ k, es.filter (fun e => DataHelpers.tsKey e == k)
            = p.2.2.filter (fun e => DataHelpers.tsKey e == k))) ∧
      ((¬ ∀ e ∈ p.2.2, e.timestamp.isSome = true) → es = p.2.2) := by
  refine ⟨if p.2.2.all (fun e => e.timestamp.isSome) then DataHelpers.sort_thread p.2.2
    else p.2.2, ?_, ?_, ?_, ?_⟩
  · rw [DataHelpers.create_email_threads]
    exact List.mem_map.mpr ⟨p, hp, rfl⟩
  · by_cases hall : p.2.2.all (fun e => e.timestamp.isSome) = true
    · rw [if_pos hall]
      exact sortRank_perm _ _
    · rw [if_neg hall]
  · intro hts
    have hall : p.2.2.all (fun e => e.timestamp.isSome) = true :=
      List.all_eq_true.mpr hts
    rw [if_pos hall]
    constructor
    · rw [DataHelpers.sort_thread]
      exact sortRank_pairwise (fun a b => strLe (DataHelpers.tsKey a) (DataHelpers.tsKey b))
        (fun a b => strLe_total _ _)
        (fun a b c h1 h2 => strLe_trans _ _ _ h1 h2) p.2.2
    · intro k
      rw [DataHelpers.sort_thread]
      apply sortRank_filter
      intro x y hx hy
      have hx' : DataHelpers.tsKey x = k := by simpa using hx
      have hy' : DataHelpers.tsKey y = k := by simpa using hy
      rw [hx', hy']
      exact strLe_refl k
  · intro hnall
    rw [if_neg (fun hall => hnall (List.all_eq_true.mp hall))]

/-- C3 (witness for the amended theorem at a concrete input). -/
theorem C3_witness :
    ((0 : Nat), ("S", [(⟨some "a", [], [], "S", "", none, some "b", "1"⟩ : RawEmail),
        ⟨some "b", [], [], "S", "", none, some "a", "2"⟩]))
      ∈ (DataHelpers.group_emails
          [⟨some "a", [], [], "S", "", none, some "b", "1"⟩,
           ⟨some "b", [], [], "S", "", none, some "a", "2"⟩]).enum ∧
    ∃ es, ("thread_" ++ toString (0 + 1), es) ∈ DataHelpers.create_email_threads
        [⟨some "a", [], [], "S", "", none, some "b", "1"⟩,
         ⟨some "b", [], [], "S", "", none, some "a", "2"⟩] ∧
      es.Perm [⟨some "a", [], [], "S", "", none, some "b", "1"⟩,
        ⟨some "b", [], [], "S", "", none, some "a", "2"⟩] ∧
      ((∀ e ∈ [(⟨some "a", [], [], "S", "", none, some "b", "1"⟩ : RawEmail),
          ⟨some "b", [], [], "S", "", none, some "a", "2"⟩], e.timestamp.isSome = true) →
        es.Pairwise (fun a b => strLe (DataHelpers.tsKey a) (DataHelpers.tsKey b) = true) ∧
        (∀ k, es.filter (fun e => DataHelpers.tsKey e == k)
            = [(⟨some "a", [], [], "S", "", none, some "b", "1"⟩ : RawEmail),
                ⟨some "b", [], [], "S", "", none, some "a", "2"⟩].filter
                (fun e => DataHelpers.tsKey e == k))) ∧
      ((¬ ∀ e ∈ [(⟨some "a", [], [], "S", "", none, some "b", "1"⟩ : RawEmail),
          ⟨some "b", [], [], "S", "", none, some "a", "2"⟩], e.timestamp.isSome = true) →
        es = [⟨some "a", [], [], "S", "", none, some "b", "1"⟩,
          ⟨some "b", [], [], "S", "", none, some "a", "2"⟩]) :=
  ⟨by decide,
   C3_amended
     [⟨some "a", [], [], "S", "", none, some "b", "1"⟩,
      ⟨some "b", [], [], "S", "", none, some "a", "2"⟩]
     (0, ("S", [⟨some "a", [], [], "S", "", none, some "b", "1"⟩,
        ⟨some "b", [], [], "S", "", none, some "a", "2"⟩]))
     (by decide)⟩

/-- C4: evaluation of `extract_key_people` at the failing input.  One email
from `alice` to `bob` (subject without `Re:`): the claim — and the code's own
comment "people who receive many emails" — demands that the approvers ranking
be computed from received-email counts (giving `["bob"]`), but
`person_email_count` is incremented for the *sender*, so the code returns
`["alice"]`. -/
theorem C4_theorem :
    (DataHelpers.extract_key_people
        [⟨some "alice", ["bob"], [], "Hello", "", none, none, "e1"⟩]).approvers
      = ["alice"] ∧
    DataHelpers.key_people_result
        [⟨some "alice", ["bob"], [], "Hello", "", none, none, "e1"⟩]
      = [("approvers", ["alice"])] := by
  exact ⟨by decide, by decide⟩

/-- C5 (counterexample): the project patterns are matched case-sensitively,
not case-insensitively.  The subject `"PROJ Alpha"` yields the candidate
`Alpha`, but the same subject with the lowercase marker `"proj Alpha"` (which
a case-insensitive `PROJ` would match) yields nothing. -/
theorem C5_counterexample :
    DataHelpers.extract_key_projects
        [⟨some "p", [], [], "proj Alpha", "", none, none, "e1"⟩] = [] ∧
    DataHelpers.extract_key_projects
        [⟨some "p", [], [], "PROJ Alpha", "", none, none, "e1"⟩] = ["Alpha"] := by
  exact ⟨by decide, by decide⟩

/-- C5 (amended): project extraction scans subjects (weight 2) and bodies
(weight 1) with the *case-sensitive* literal alternatives
`Project`/`PROJ`/`project` and the bracket form, keeps candidates of 3–30
characters after trimming, accumulates weight per distinct candidate (keys in
first-seen order), and returns the top 5 by weight descending with ties
broken by first-seen order (stable sort over the insertion-ordered tally). -/
theorem C5_amended (emails : List RawEmail) :
    (∀ k, lookupD (DataHelpers.project_tally emails) k 0
        = 2 * ((emails.map (fun e => (DataHelpers.valid_names e.subject).count k)).sum)
          + ((emails.map (fun e => (DataHelpers.valid_names e.body).count k)).sum))
    ∧ (DataHelpers.project_tally emails).map Prod.fst
        = DataHelpers.first_seen
            ((emails.map DataHelpers.email_project_events).flatten.map Prod.fst)
    ∧ (sortRank DataHelpers.descNat (DataHelpers.project_tally emails)).Pairwise
        (fun a b => b.2 ≤ a.2)
    ∧ (∀ w, (sortRank DataHelpers.descNat (DataHelpers.project_tally emails)).filter
          (fun p => p.2 == w)
        = (DataHelpers.project_tally emails).filter (fun p => p.2 == w))
    ∧ (DataHelpers.extract_key_projects emails).length ≤ 5 := by
  refine ⟨DataHelpers.project_tally_lookup emails, DataHelpers.project_tally_keys emails,
    ?_, ?_, ?_⟩
  · have hp := sortRank_pairwise DataHelpers.descNat
      (fun a b => by
        rw [DataHelpers.descNat, DataHelpers.descNat]
        rcases Nat.le_total b.2 a.2 with h | h
        · left
          simpa using h
        · right
          simpa using h)
      (fun a b c h1 h2 => by
        rw [DataHelpers.descNat] at h1 h2 ⊢
        have h1' : b.2 ≤ a.2 := by simpa using h1
        have h2' : c.2 ≤ b.2 := by simpa using h2
        simp [le_trans h2' h1'])
      (DataHelpers.project_tally emails)
    exact hp.imp (fun h => by simpa [DataHelpers.descNat] using h)
  · intro w
    apply sortRank_filter
    intro x y hx hy
    have hx' : x.2 = w := by simpa using hx
    have hy' : y.2 = w := by simpa using hy
    rw [DataHelpers.descNat, hx', hy']
    simp
  · rw [DataHelpers.extract_key_projects, List.length_map]
    calc ((sortRank DataHelpers.descNat (DataHelpers.project_tally emails)).take 5).length
        ≤ 5 := by
          rw [List.length_take]
          exact min_le_left _ _

/-- C6 (counterexample): the claim fails on the refactored department
analyzer (`analysis/departments.py`, cited by the claim): an email from a
Finance sender whose text contains the overlay keyword `budget` gets 0.5
added to `process_issues`, not to `resource_constraints` (whose score stays
at the 1.0 contributed by the general keyword check) — whereas the claimed
routing sends `budget` to `resource_constraints`. -/
theorem C6_counterexample :
    (DepartmentAnalyzer.analyze_department_patterns
        [⟨some "f", [], [], "budget", "", none, none, "e1"⟩] [("f", "Finance")]).map
      (fun di => (di.1, lookupD di.2.constraints "resource_constraints" 0,
                  lookupD di.2.constraints "process_issues" 0))
      = [("Finance", 1, 1 / 2)] ∧
    ConstraintAnalyzer.specOverlayTarget "budget" = "resource_constraints" := by
  constructor
  · simp +decide [DepartmentAnalyzer.analyze_department_patterns,
      DepartmentAnalyzer.email_step, DepartmentAnalyzer.overlay_step,
      DepartmentAnalyzer.general_keywords, ConstraintIdentifier.department_constraints,
      ConstraintIdentifier.constraint_keywords, lookupD, updAdd, List.find?]
  · decide

/-- C6 (amended): in `constraint_analyzer.py`'s scorer the overlay adds
exactly 0.5 per matched department keyword, routed to `resource_constraints`
iff the keyword contains `budget`, `cost`, `feature` or `requirement` as a
case-insensitive substring and to `process_issues` otherwise (the code's
`if/elif/else` chain agrees with that rule on every overlay keyword); in the
refactored `DepartmentAnalyzer` every matched overlay keyword instead adds
0.5 to `process_issues` unconditionally. -/
theorem C6_amended :
    (∀ (m : List (String × ℚ)) (dept text : String),
      ConstraintAnalyzer.overlayStep m dept text
        = ConstraintAnalyzer.specOverlayStep m dept text)
    ∧ (∀ (m : List (String × ℚ)) (dept textLower c : String),
      m.any (fun q => q.1 == "process_issues") = true →
      lookupD (DepartmentAnalyzer.overlay_step m dept textLower) c 0
        = lookupD m c 0 +
          (if c = "process_issues" then
            (((lookupD ConstraintIdentifier.department_constraints dept []).filter
                (fun kw => strIn kw textLower)).length : ℚ) / 2
           else 0)) :=
  ⟨ConstraintAnalyzer.overlayStep_eq_spec, DepartmentAnalyzer.overlay_step_lookup⟩

/-- C6 (witness for the amended theorem at a concrete input). -/
theorem C6_witness :
    (([("process_issues", (0 : ℚ))] : List (String × ℚ)).any
        (fun q => q.1 == "process_issues")) = true ∧
    lookupD (DepartmentAnalyzer.overlay_step [("process_issues", (0 : ℚ))]
        "Finance" "budget") "process_issues" 0
      = lookupD [("process_issues", (0 : ℚ))] "process_issues" 0 +
        (if "process_issues" = "process_issues" then
          (((lookupD ConstraintIdentifier.department_constraints "Finance" []).filter
              (fun kw => strIn kw "budget")).length : ℚ) / 2
         else 0) :=
  ⟨by decide, C6_amended.2 [("process_issues", (0 : ℚ))] "Finance" "budget"
    "process_issues" (by decide)⟩

/-- C7: for every score vector, the refactored recommendation generator
returns recommendations in non-increasing score order, every returned
recommendation has score `≥ 0.1` (this module performs no response-time
augmentation), and at most 5 recommendations are returned. -/
theorem C7_theorem (scores : List (String × ℚ)) :
    (RecommendationGenerator.generate_recommendations scores).Pairwise
        (fun a b => b.score ≤ a.score)
    ∧ (∀ r ∈ RecommendationGenerator.generate_recommendations scores,
        (1 : ℚ) / 10 ≤ r.score)
    ∧ (RecommendationGenerator.generate_recommendations scores).length ≤ 5 := by
  refine ⟨?_, ?_, ?_⟩
  · have hsorted := sortRank_pairwise (fun a b : String × ℚ => decide (b.2 ≤ a.2))
      (fun a b => by
        rcases le_total b.2 a.2 with h | h
        · left
          simpa using h
        · right
          simpa using h)
      (fun a b c h1 h2 => by
        have h1' : b.2 ≤ a.2 := by simpa using h1
        have h2' : c.2 ≤ b.2 := by simpa using h2
        simp [le_trans h2' h1'])
      scores
    have hmapped : ((sortRank (fun a b : String × ℚ => decide (b.2 ≤ a.2)) scores).map
        (fun p => (⟨p.1, p.2, RecommendationGenerator.calculate_priority p.2⟩ :
          RecommendationGenerator.Rec))).Pairwise
        (fun a b => b.score ≤ a.score) := by
      refine List.Pairwise.map _ (fun a b hab => ?_) hsorted
      simpa using hab
    exact hmapped.sublist (RecommendationGenerator.recLoop_sublist _ 0)
  · exact RecommendationGenerator.recLoop_score _ 0
  · have := RecommendationGenerator.recLoop_length
      (sortRank (fun a b : String × ℚ => decide (b.2 ≤ a.2)) scores) 0 (by omega)
    simpa [RecommendationGenerator.generate_recommendations] using this

/-- C7 (witness at a concrete input). -/
theorem C7_witness :
    (⟨"deadline_issues", (1 : ℚ), "high"⟩ : RecommendationGenerator.Rec)
        ∈ RecommendationGenerator.generate_recommendations [("deadline_issues", 1)]
    ∧ (1 : ℚ) / 10
        ≤ (⟨"deadline_issues", (1 : ℚ), "high"⟩ : RecommendationGenerator.Rec).score := by
  have hmem : (⟨"deadline_issues", (1 : ℚ), "high"⟩ : RecommendationGenerator.Rec)
      ∈ RecommendationGenerator.generate_recommendations [("deadline_issues", 1)] := by
    norm_num [RecommendationGenerator.generate_recommendations,
      RecommendationGenerator.recLoop, RecommendationGenerator.has_template,
      RecommendationGenerator.calculate_priority, sortRank, insertRank]
  exact ⟨hmem, (C7_theorem [("deadline_issues", 1)]).2.1 _ hmem⟩

/-- C8: the legacy `generate_recommendations` appends the fixed
`"Improve Team Response Time"` recommendation (confidence 0.7, no threshold
check, no personalization) exactly when some thread's average response time
exceeds 24 hours and the base loop produced fewer than 3 recommendations;
otherwise the output is exactly the base recommendations, which never contain
such a recommendation. -/
theorem C8_theorem (scores thread_analysis : List (String × ℚ)) :
    (((∃ p ∈ thread_analysis, (24 : ℚ) < p.2) ∧
        (ConstraintAnalyzer.base_recommendations scores).length < 3) →
      ConstraintAnalyzer.generate_recommendations scores thread_analysis
        = ConstraintAnalyzer.base_recommendations scores
            ++ [ConstraintAnalyzer.response_time_rec])
    ∧ ((¬ ((∃ p ∈ thread_analysis, (24 : ℚ) < p.2) ∧
        (ConstraintAnalyzer.base_recommendations scores).length < 3)) →
      ConstraintAnalyzer.generate_recommendations scores thread_analysis
        = ConstraintAnalyzer.base_recommendations scores)
    ∧ ∀ r ∈ ConstraintAnalyzer.base_recommendations scores,
        r ≠ ConstraintAnalyzer.response_time_rec := by
  have hiff : (thread_analysis.filter (fun p => decide ((24 : ℚ) < p.2)) ≠ [])
      ↔ ∃ p ∈ thread_analysis, (24 : ℚ) < p.2 := by
    constructor
    · intro hne
      cases hfl : thread_analysis.filter (fun p => decide ((24 : ℚ) < p.2)) with
      | nil => exact absurd hfl hne
      | cons q qs =>
        have hq : q ∈ thread_analysis.filter (fun p => decide ((24 : ℚ) < p.2)) := by
          rw [hfl]
          exact List.mem_cons_self q qs
        have := List.mem_filter.mp hq
        exact ⟨q, this.1, by simpa using this.2⟩
    · rintro ⟨q, hq, hlt⟩
      exact List.ne_nil_of_mem (List.mem_filter.mpr ⟨hq, by simpa using hlt⟩)
  refine ⟨?_, ?_, ConstraintAnalyzer.base_rec_ne scores⟩
  · intro hcond
    rw [ConstraintAnalyzer.generate_recommendations,
      if_pos ⟨hiff.mpr hcond.1, hcond.2⟩]
  · intro hcond
    rw [ConstraintAnalyzer.generate_recommendations, if_neg (fun hc =>
      hcond ⟨hiff.mp hc.1, hc.2⟩)]

/-- C8 (witness at a concrete input: one slow thread, one base
recommendation). -/
theorem C8_witness :
    ((∃ p ∈ ([("t1", (30 : ℚ))] : List (String × ℚ)), (24 : ℚ) < p.2) ∧
      (ConstraintAnalyzer.base_recommendations [("deadline_issues", 1)]).length < 3) ∧
    ConstraintAnalyzer.generate_recommendations [("deadline_issues", 1)] [("t1", 30)]
      = ConstraintAnalyzer.base_recommendations [("deadline_issues", 1)]
          ++ [ConstraintAnalyzer.response_time_rec] := by
  have hbase : ConstraintAnalyzer.base_recommendations [("deadline_issues", 1)]
      = [⟨"deadline_issues", 1, "Address Project Timeline Bottlenecks"⟩] := by
    norm_num [ConstraintAnalyzer.base_recommendations, ConstraintAnalyzer.titleFor,
      sortRank, insertRank, lookupD, List.find?]
  have hcond : (∃ p ∈ ([("t1", (30 : ℚ))] : List (String × ℚ)), (24 : ℚ) < p.2) ∧
      (ConstraintAnalyzer.base_recommendations [("deadline_issues", 1)]).length < 3 := by
    refine ⟨⟨("t1", 30), List.mem_cons_self _ _, by norm_num⟩, ?_⟩
    rw [hbase]
    simp
  exact ⟨hcond, (C8_theorem [("deadline_issues", 1)] [("t1", 30)]).1 hcond⟩

/-- C9: loading fails (returns `False`, and the analysis report gets status
`"error"`, never `"success"` with fabricated data) exactly when the target
cannot be parsed as JSON (any exception path) or the accepted shapes yield
zero emails; in particular an empty email list never produces a success
report. -/
theorem C9_theorem (d : Loading.LoadedJson) :
    (Loading.load_data d = false
      ↔ d = Loading.LoadedJson.parseFail ∨ Loading.extracted_emails d = [])
    ∧ (Loading.analyze_status d = "success" ↔ Loading.load_data d = true)
    ∧ Loading.analyze_status (Loading.LoadedJson.listEmails []) = "error" := by
  refine ⟨?_, ?_, by decide⟩
  · cases d with
    | parseFail => simp [Loading.load_data]
    | dictRaw es =>
      simp only [Loading.load_data, Loading.extracted_emails]
      constructor
      · intro h
        right
        have := of_decide_eq_false h
        exact List.eq_nil_of_length_eq_zero (by omega)
      · rintro (h | h)
        · exact absurd h (by simp)
        · subst h
          rfl
    | dictEmails es =>
      simp only [Loading.load_data, Loading.extracted_emails]
      constructor
      · intro h
        right
        have := of_decide_eq_false h
        exact List.eq_nil_of_length_eq_zero (by omega)
      · rintro (h | h)
        · exact absurd h (by simp)
        · subst h
          rfl
    | listEmails es =>
      simp only [Loading.load_data, Loading.extracted_emails]
      constructor
      · intro h
        right
        have := of_decide_eq_false h
        exact List.eq_nil_of_length_eq_zero (by omega)
      · rintro (h | h)
        · exact absurd h (by simp)
        · subst h
          rfl
    | otherJson => simp [Loading.load_data, Loading.extracted_emails]
  · rw [Loading.analyze_status]
    by_cases h : Loading.load_data d = true
    · simp [h]
    · rw [if_neg h]
      constructor
      · intro hcon
        exact absurd hcon (by decide)
      · intro hcon
        exact absurd hcon h
